import Mathlib

/-!
Verification of the CSV parser/writer and keyed entity-table engine of the
transit-data import/export tool (`src/csv`).  Strings are modelled as
`List Char`; the incremental chunk parser `parseChunk`
(`src/csv/helpers/parse-csv.ts`) is embedded as a tokenizer that splits a
chunk at every comma / newline (the loop `while (i <= lastIndex)` with
`indexOf(',', i)` / `indexOf('\n', i)` processes exactly the
delimiter-terminated spans, in order, and returns the text after the last
delimiter as the remainder), together with a per-span step function mirroring
the two branches of the loop body.
-/

deriving instance DecidableEq for Except

namespace Tgtfs

/-- JavaScript `String.prototype.trim` whitespace (the ECMA WhiteSpace and
LineTerminator sets; the code points that can actually occur here are the
ASCII ones). -/
def isJsWS (c : Char) : Bool :=
  c = ' ' || c = '\t' || c = '\n' || c = '\r' || c.toNat = 0x0b || c.toNat = 0x0c ||
  c.toNat = 0xa0 || c.toNat = 0x1680 || (0x2000 ≤ c.toNat && c.toNat ≤ 0x200a) ||
  c.toNat = 0x2028 || c.toNat = 0x2029 || c.toNat = 0x202f || c.toNat = 0x205f ||
  c.toNat = 0x3000 || c.toNat = 0xfeff

/-- `str.trimStart()`. -/
def trimStart (l : List Char) : List Char := l.dropWhile isJsWS

/-- `str.trimEnd()`. -/
def trimEnd (l : List Char) : List Char := (l.reverse.dropWhile isJsWS).reverse

/-- `str.trim()`. -/
def trim (l : List Char) : List Char := trimEnd (trimStart l)

/-- Length of the run of `"` characters at the end of the string: the count
computed by the backwards loops of `isFullQuote` and
`hasOddNumberEndQuotes` (`parse-csv.ts` lines 129-147). -/
def trailingQuotes (l : List Char) : Nat :=
  (l.reverse.takeWhile (fun c => c = '"')).length

/-- `isFullQuote` (`parse-csv.ts` line 129): the loop index reaches `-1`
exactly when the whole string is quotes, in which case an even count closes
the field; otherwise an odd trailing count closes it. -/
def isFullQuote (l : List Char) : Bool :=
  let q := trailingQuotes l
  if q = l.length then q % 2 = 0 else q % 2 = 1

/-- `hasOddNumberEndQuotes` (`parse-csv.ts` line 139). -/
def hasOddNumberEndQuotes (l : List Char) : Bool :=
  trailingQuotes l % 2 = 1

/-- `str.replaceAll('""', '"')`: left-to-right non-overlapping replacement of
doubled quotes. -/
def unescQ : List Char → List Char
  | [] => []
  | [c] => [c]
  | c :: c' :: rest =>
    if c = '"' ∧ c' = '"' then '"' :: unescQ rest
    else c :: unescQ (c' :: rest)

/-- `str.replaceAll('"', '""')` (the writer's quote doubling in
`escapeCsvSpecialChars`, `export.ts` line 100). -/
def escQ : List Char → List Char
  | [] => []
  | c :: rest => if c = '"' then '"' :: '"' :: escQ rest else c :: escQ rest

/-- Well-escaped string: every `"` is immediately paired with a second `"`
(the image of `escQ`). -/
def wfEsc : List Char → Bool
  | [] => true
  | [c] => c ≠ '"'
  | c :: c' :: rest => if c = '"' then c' = '"' && wfEsc rest else wfEsc (c' :: rest)

/-! ### The tokenizer

`parseChunk` scans `csv` left to right; each iteration finds the next comma
or newline (whichever comes first), handles the span before it, and moves
past it; the loop stops once `i` passes the last delimiter of the chunk and
the text after that last delimiter is returned as the remainder.  This is
exactly a split of the chunk into delimiter-terminated spans plus a
delimiter-free tail. -/

inductive Delim where
  | comma
  | newline
deriving DecidableEq, Repr

def delimChar : Delim → Char
  | .comma => ','
  | .newline => '\n'

def charDelim? (c : Char) : Option Delim :=
  if c = ',' then some .comma else if c = '\n' then some .newline else none

abbrev Tok := List Char × Delim

/-- Split a chunk into its delimiter-terminated spans and the trailing
delimiter-free remainder. -/
def tokenize : List Char → List Tok × List Char
  | [] => ([], [])
  | c :: rest =>
    let (ts, tail) := tokenize rest
    match charDelim? c with
    | some d => (([], d) :: ts, tail)
    | none =>
      match ts with
      | [] => ([], c :: tail)
      | (f, d) :: ts2 => ((c :: f, d) :: ts2, tail)

/-! ### The parser state machine (`parseChunk`, `parse-csv.ts` lines 38-127) -/

inductive RState where
  | text
  | escaped
deriving DecidableEq, Repr

/-- `CsvParseState` (`parse-csv.ts` lines 4-9). -/
structure CsvParseState where
  readingState : RState
  header : List (List Char)
  columns : List (List Char)
  text : List Char
deriving DecidableEq, Repr

/-- The default state of `parseChunk`'s `state` parameter. -/
def initState : CsvParseState := ⟨.text, [], [], []⟩

/-- A row record as delivered to the row callback: the entry list built by
`zipRow` (field name, optional value) from which `Object.fromEntries` makes
the record. -/
abbrev Row := List (List Char × Option (List Char))

/-- `zipRow` (`parse-csv.ts` lines 149-151): pair each header name with
`row.at(i) || undefined`, so both a missing trailing column and an
empty-string value become `undefined`. -/
def zipRow (header : List (List Char)) (row : List (List Char)) : Row :=
  header.enum.map fun p =>
    (p.2, match row.get? p.1 with
          | some v => if v = [] then none else some v
          | none => none)

/-- Errors surfaced by the table engine and parser (section 7 of the design:
`TgtfsParsingError`, referential-integrity failures, the two `throw`s of
`checkForeignKey`, and the parser's quote error). -/
inductive TableError where
  | parsing (tableName : List Char) (msg : List Char)
  | foreignKey (tableName : List Char) (field : List Char) (value : List Char)
  | fkNotString
  | fkMissingTable (tableName : List Char)
  | parseSyntax
deriving DecidableEq, Repr

/-- What the row callback does with a delivered row: return normally,
return `-1` (stop), or throw. -/
inductive CbSignal where
  | next
  | stop
  | raise (e : TableError)
deriving DecidableEq, Repr

/-- Row finalization on terminator resolution (`parse-csv.ts` lines 87-92,
96-101 and 111-115): if no header is captured yet the finished columns become
the header (optionally remapped); otherwise the columns are zipped against
the header and emitted. -/
def finalizeRow (th : Option (List Char → List Char)) (st : CsvParseState) :
    CsvParseState × Option Row :=
  if st.header = [] then
    ({ st with header := match th with
                         | some t => st.columns.map t
                         | none => st.columns,
               columns := [] }, none)
  else
    ({ st with columns := [] }, some (zipRow st.header st.columns))

/-- Result of handling one delimiter-terminated span. -/
inductive StepOut where
  | ok (st : CsvParseState) (emitted : Option Row)
  | fail
deriving Repr

/-- One iteration of `parseChunk`'s loop: the comma branch
(`parse-csv.ts` lines 56-79) or the newline branch (lines 80-123), applied
to the span `substr` before the delimiter. -/
def stepToken (th : Option (List Char → List Char)) (st : CsvParseState) :
    Tok → StepOut
  | (substr, .comma) =>
    let quoted := substr.contains '"'
    if st.readingState ≠ .escaped then
      if !quoted then
        .ok { st with columns := st.columns ++ [trim substr] } none
      else if (trimStart substr).head? = some '"' then
        if isFullQuote (trimEnd substr) then
          .ok { st with columns :=
                  st.columns ++ [unescQ (((trim substr).drop 1).dropLast)] } none
        else
          .ok { st with text := st.text ++ ((trimStart substr).drop 1) ++ [','],
                        readingState := .escaped } none
      else
        .fail
    else if hasOddNumberEndQuotes (trimEnd substr) then
      .ok { st with columns := st.columns ++ [unescQ (st.text ++ (trimEnd substr).dropLast)],
                    readingState := .text, text := [] } none
    else
      .ok { st with text := st.text ++ substr ++ [','] } none
  | (substr, .newline) =>
    let quoted := substr.contains '"'
    if st.readingState ≠ .escaped then
      if !quoted && (decide (0 < st.columns.length) || decide (trim substr ≠ [])) then
        let (st₂, r) := finalizeRow th { st with columns := st.columns ++ [trim substr] }
        .ok st₂ r
      else if (trimStart substr).head? = some '"' then
        if isFullQuote (trimEnd substr) then
          let (st₂, r) := finalizeRow th
            { st with columns := st.columns ++ [unescQ (((trim substr).drop 1).dropLast)] }
          .ok st₂ r
        else
          .ok { st with text := st.text ++ ((trimStart substr).drop 1) ++ ['\n'],
                        readingState := .escaped } none
      else if quoted then
        .fail
      else
        .ok st none
    else if hasOddNumberEndQuotes (trimEnd substr) then
      let (st₂, r) := finalizeRow th
        { st with columns := st.columns ++ [unescQ (st.text ++ (trimEnd substr).dropLast)] }
      .ok { st₂ with readingState := .text, text := [] } r
    else
      .ok { st with text := st.text ++ substr ++ ['\n'] } none

/-- Outcome of the whole loop of `parseChunk`: normal completion, `return -1`
after the callback signalled stop, the parser's own `throw`, or an exception
propagating out of the callback. -/
inductive RunOut where
  | done (st : CsvParseState)
  | stopped
  | failed
  | raised (e : TableError)
deriving DecidableEq, Repr

/-- Run the loop body over the delimiter-terminated spans, invoking the row
callback on every emitted row; also collects the sequence of rows delivered
to the callback (in delivery order). -/
def runTokens (cb : Row → CbSignal) (th : Option (List Char → List Char)) :
    CsvParseState → List Tok → RunOut × List Row
  | st, [] => (.done st, [])
  | st, t :: ts =>
    match stepToken th st t with
    | .fail => (.failed, [])
    | .ok st' none => runTokens cb th st' ts
    | .ok st' (some r) =>
      match cb r with
      | .next =>
        let (o, rs) := runTokens cb th st' ts
        (o, r :: rs)
      | .stop => (.stopped, [r])
      | .raise e => (.raised e, [r])

/-- Return value of `parseChunk`: either `{ state, remainder }` or the stop
marker `-1`; `failed` / `raised` stand for the exceptions that propagate out
of the call. -/
inductive ParseOutcome where
  | done (st : CsvParseState) (remainder : List Char)
  | stopped
  | failed
  | raised (e : TableError)
deriving DecidableEq, Repr

/-- `parseChunk` (`parse-csv.ts` lines 38-127), also reporting the sequence
of rows the callback received. -/
def parseChunk (csv : List Char) (cb : Row → CbSignal)
    (st : CsvParseState) (th : Option (List Char → List Char)) :
    ParseOutcome × List Row :=
  match runTokens cb th st (tokenize csv).1 with
  | (.done st', rows) => (.done st' (tokenize csv).2, rows)
  | (.stopped, rows) => (.stopped, rows)
  | (.failed, rows) => (.failed, rows)
  | (.raised e, rows) => (.raised e, rows)

/-- Driving `parseChunk` over a sequence of stream chunks, each call
receiving the previous remainder prepended to the next chunk and the carried
state (the loop of `importFromCsv`, `import.ts` lines 16-25, and of
`parseCsv`): stops at `-1` or on a thrown error. -/
def parseSeq (cb : Row → CbSignal) (th : Option (List Char → List Char)) :
    CsvParseState → List Char → List (List Char) → ParseOutcome × List Row
  | st, rem, [] => (.done st rem, [])
  | st, rem, c :: cs =>
    match parseChunk (rem ++ c) cb st th with
    | (.done st' rem', rows) =>
      let (o, rs) := parseSeq cb th st' rem' cs
      (o, rows ++ rs)
    | early => early

/-- The full stream drive of `importFromCsv` (`import.ts` lines 12-29) /
`parseCsv`: run the chunks, then feed one synthetic `'\n'` so a final row
lacking a trailing terminator is still emitted; the final call's return value
is discarded (so a `-1` there is ignored) but thrown errors propagate. -/
def runCsvStream (cb : Row → CbSignal) (th : Option (List Char → List Char))
    (chunks : List (List Char)) : ParseOutcome × List Row :=
  match parseSeq cb th initState [] chunks with
  | (.done st rem, rows) =>
    match parseChunk (rem ++ ['\n']) cb st th with
    | (.done st' rem', rows') => (.done st' rem', rows ++ rows')
    | (.stopped, rows') => (.done st [], rows ++ rows')
    | (.failed, rows') => (.failed, rows ++ rows')
    | (.raised e, rows') => (.raised e, rows ++ rows')
  | early => early

/-! ### Entities, values, and the keyed table engine (`make-table.ts`) -/

/-- `Array.prototype.join(sep)`. -/
def joinSep (sep : List Char) : List (List Char) → List Char
  | [] => []
  | [x] => x
  | x :: xs => x ++ sep ++ joinSep sep xs

/-- The decimal digit characters. -/
def digitCh (k : Nat) : Char := Char.ofNat (48 + k)

/-- Decimal rendering of a natural number (JavaScript `String(n)`). -/
def natChars (n : Nat) : List Char :=
  if n < 10 then [digitCh n] else natChars (n / 10) ++ [digitCh (n % 10)]
decreasing_by exact Nat.div_lt_self (by omega) (by omega)

/-- A typed field value of a validated entity: the value kinds the repo's
schemas produce (strings and enumerated strings, integers, integer arrays
such as `arrival_times`, and absent optional fields). -/
inductive Value where
  | str (s : List Char)
  | num (n : Int)
  | arr (a : List Int)
  | undef
deriving DecidableEq, Repr

/-- An entity: an ordered mapping from field name to typed value. -/
abbrev Entity := List (List Char × Value)

/-- JavaScript decimal rendering of an integer. -/
def intChars (n : Int) : List Char :=
  if n < 0 then '-' :: natChars (-n).toNat else natChars n.toNat

/-- JavaScript `String(v)` for the value kinds above (`String` of an array
joins the elements with commas; of `undefined` gives `"undefined"`). -/
def valueToString : Value → List Char
  | .str s => s
  | .num n => intChars n
  | .arr a => joinSep [','] (a.map intChars)
  | .undef => "undefined".data

/-- Property access `entity[k]`: `undefined` when the field is absent. -/
def entityGet (e : Entity) (k : List Char) : Value :=
  match e.find? (fun p => p.1 = k) with
  | none => .undef
  | some p => p.2

/-- An insertion-ordered map, as a JavaScript `Map`: an association list in
insertion order. -/
abbrev OneIndexMap := List (List Char × Entity)

/-- `Map.get`. -/
def mapGet {α : Type} (m : List (List Char × α)) (k : List Char) : Option α :=
  match m.find? (fun p => p.1 = k) with
  | some p => some p.2
  | none => none

/-- `Map.set`: overwrite in place when the key exists (keeping its original
position), append otherwise. -/
def mapSet {α : Type} : List (List Char × α) → List Char → α →
    List (List Char × α)
  | [], k, v => [(k, v)]
  | (k', v') :: rest, k, v =>
    if k' = k then (k', v) :: rest else (k', v') :: mapSet rest k v

/-- `Map.delete`: remove the entry with the key (keys are unique in a
`Map`). -/
def mapDelete {α : Type} : List (List Char × α) → List Char →
    List (List Char × α)
  | [], _ => []
  | (k', v') :: rest, k =>
    if k' = k then rest else (k', v') :: mapDelete rest k

/-- The Registry (`ItineraryTgtfs`): the two run-wide flags and, for
foreign-key resolution, each owned table's stored entities by name.  Only
`getWithId` of a referenced table is consulted, so tables appear here as
their primary-key maps. -/
structure Registry where
  transcodeMode : Bool
  allowInterFeedKeys : Bool
  tables : List (List Char × OneIndexMap)

/-- The separator byte `'␟'` (U+241F) joining stringified key-field
values. -/
def keySep : Char := '␟'

/-- A table's static configuration (`OneIndexConfig`): name, declared column
order of the field schema, primary key, declared foreign keys, inter-feed
exemptions, the externally supplied Schema Validator (the zod field schema
plus `additionalValidation` predicates, applied by `parseEntity`), and the
optional header remapping. -/
structure OneIndexCfg where
  tableName : List Char
  fieldNames : List (List Char)
  primaryKey : List (List Char)
  foreignKeys : List (List Char × List Char)
  interFeedKeys : List (List Char)
  validate : Row → Except (List Char) Entity
  transformHeader : Option (List Char → List Char)

/-- `OneIndexTable.#getKey` (`make-table.ts` lines 69-75): the stringified
primary-key field values joined by the separator; with no declared primary
key, all field values. -/
def getKey (cfg : OneIndexCfg) (e : Entity) : List Char :=
  if cfg.primaryKey = [] then
    joinSep [keySep] (e.map (fun p => valueToString p.2))
  else
    joinSep [keySep] (cfg.primaryKey.map (fun k => valueToString (entityGet e k)))

/-- The foreign keys a table actually checks (`make-table.ts` lines 60-62):
all declared ones except those marked inter-feed while the Registry allows
inter-feed keys. -/
def effectiveFKs (cfg : OneIndexCfg) (reg : Registry) :
    List (List Char × List Char) :=
  cfg.foreignKeys.filter
    (fun p => !(cfg.interFeedKeys.contains p.1 && reg.allowInterFeedKeys))

/-- Resolution of a referenced table through the Registry:
`tgtfs[tableName]`. -/
def regTable? (reg : Registry) (tableName : List Char) : Option OneIndexMap :=
  match reg.tables.find? (fun p => p.1 = tableName) with
  | some p => some p.2
  | none => none

/-- `checkForeignKey` (`make-table.ts` lines 361-373): `undefined` is always
valid; a non-string value throws; otherwise the referenced table is resolved
through the Registry and the id looked up (`getWithId`). -/
def checkForeignKey (reg : Registry) (tableName : List Char) :
    Value → Except TableError Bool
  | .undef => .ok true
  | .str s =>
    match regTable? reg tableName with
    | some m => .ok (mapGet m s).isSome
    | none => .error (.fkMissingTable tableName)
  | _ => .error .fkNotString

/-- One declared foreign key passes for an entity: the value is absent, or it
is a string resolving to an existing entity of the referenced table. -/
def fkOkB (reg : Registry) (e : Entity) (p : List Char × List Char) : Bool :=
  match entityGet e p.1 with
  | .undef => true
  | .str s =>
    match regTable? reg p.2 with
    | some m => (mapGet m s).isSome
    | none => false
  | _ => false

/-- One declared foreign key can be checked without throwing: the value is
absent, or it is a string and the referenced table resolves. -/
def fkBenignOneB (reg : Registry) (e : Entity) (p : List Char × List Char) : Bool :=
  match entityGet e p.1 with
  | .undef => true
  | .str _ => (regTable? reg p.2).isSome
  | _ => false

/-- The foreign-key loop shared by `addEntity` and `validateLinkedFields`:
raise on the first declared key whose present value has no match. -/
def checkEntityFKs (reg : Registry) (tableName : List Char) (e : Entity) :
    List (List Char × List Char) → Except TableError Unit
  | [] => .ok ()
  | (f, tn) :: rest =>
    match checkForeignKey reg tn (entityGet e f) with
    | .error err => .error err
    | .ok true => checkEntityFKs reg tableName e rest
    | .ok false => .error (.foreignKey tableName f (valueToString (entityGet e f)))

/-- `OneIndexTable.addParsedEntity` (`make-table.ts` lines 106-109): store
under the recomputed key, overwriting silently. -/
def addParsedEntity (cfg : OneIndexCfg) (tbl : OneIndexMap) (e : Entity) :
    OneIndexMap :=
  mapSet tbl (getKey cfg e) e

/-- `OneIndexTable.addEntity` (`make-table.ts` lines 82-100): validate via
the schema (raising `TgtfsParsingError` on failure), optionally check every
effective foreign key, then store. -/
def addEntity (cfg : OneIndexCfg) (reg : Registry) (tbl : OneIndexMap)
    (pre : Row) (validateLinkedFields : Bool) : Except TableError OneIndexMap :=
  match cfg.validate pre with
  | .error msg => .error (.parsing cfg.tableName msg)
  | .ok e =>
    if validateLinkedFields then
      match checkEntityFKs reg cfg.tableName e (effectiveFKs cfg reg) with
      | .error err => .error err
      | .ok _ => .ok (addParsedEntity cfg tbl e)
    else
      .ok (addParsedEntity cfg tbl e)

/-- `OneIndexTable.validateLinkedFields` (`make-table.ts` lines 149-164):
re-check every stored entity's effective foreign keys. -/
def validateLinkedFields (cfg : OneIndexCfg) (reg : Registry) :
    OneIndexMap → Except TableError Unit
  | [] => .ok ()
  | (_, e) :: rest =>
    match checkEntityFKs reg cfg.tableName e (effectiveFKs cfg reg) with
    | .error err => .error err
    | .ok _ => validateLinkedFields cfg reg rest

/-- `OneIndexTable.getWithId` (`make-table.ts` lines 135-137). -/
def getWithId (tbl : OneIndexMap) (id : List Char) : Option Entity :=
  mapGet tbl id

/-! ### Import and export (`import.ts`, `export.ts`, `importFromPath`,
`exportToPath`) -/

/-- The row callback `importFromPath` passes to `importFromCsv`:
`(preEntity) => this.addEntity(preEntity, false)`.  It never returns `-1`;
it throws exactly when the schema validator rejects the row (foreign keys
are not checked on this path), and whether it throws depends only on the
row, so it is modelled by the pure validator. -/
def importCb (cfg : OneIndexCfg) : Row → CbSignal := fun r =>
  match cfg.validate r with
  | .ok _ => .next
  | .error msg => .raise (.parsing cfg.tableName msg)

/-- Folding `addEntity(row, false)` over the delivered rows, in delivery
order, stopping at the first failure — the storage effect of the import
callback. -/
def importRows (cfg : OneIndexCfg) (reg : Registry) :
    OneIndexMap → List Row → Except TableError OneIndexMap
  | tbl, [] => .ok tbl
  | tbl, r :: rs =>
    match addEntity cfg reg tbl r false with
    | .error e => .error e
    | .ok tbl' => importRows cfg reg tbl' rs

/-- `importFromCsv` (`import.ts` lines 4-30) at the table level.  A missing
file (`fs.pathExists` false) is `none`: the function returns without touching
the table.  Otherwise the stream's chunks are parsed with the carried
state/remainder protocol and every delivered row is added. -/
def importFromCsvT (cfg : OneIndexCfg) (reg : Registry) (tbl : OneIndexMap)
    (file : Option (List (List Char))) : Except TableError OneIndexMap :=
  match file with
  | none => .ok tbl
  | some chunks =>
    let (o, rows) := runCsvStream (importCb cfg) cfg.transformHeader chunks
    match importRows cfg reg tbl rows with
    | .error e => .error e
    | .ok tbl' =>
      match o with
      | .failed => .error .parseSyntax
      | .raised e => .error e
      | _ => .ok tbl'

/-- `OneIndexTable.importFromPath` (`make-table.ts` lines 170-176): import
the file, then run `validateLinkedFields` unless the Registry is in
transcode mode. -/
def importFromPath (cfg : OneIndexCfg) (reg : Registry) (tbl : OneIndexMap)
    (file : Option (List (List Char))) : Except TableError OneIndexMap :=
  match importFromCsvT cfg reg tbl file with
  | .error e => .error e
  | .ok tbl' =>
    if reg.transcodeMode then .ok tbl'
    else
      match validateLinkedFields cfg reg tbl' with
      | .error e => .error e
      | .ok _ => .ok tbl'

/-- `escapeCsvSpecialChars` (`export.ts` lines 99-101): quote and double
embedded quotes only when the string contains a comma, quote or newline. -/
def escapeCsvSpecialChars (s : List Char) : List Char :=
  if s.contains '"' || s.contains ',' || s.contains '\n' then
    '"' :: escQ s ++ ['"']
  else s

/-- `JSON.stringify` of an integer array. -/
def jsonArrChars (a : List Int) : List Char :=
  '[' :: joinSep [','] (a.map intChars) ++ [']']

/-- One field as written by `writeCsvRow` (`export.ts` lines 75-93):
arrays JSON-encoded and quoted, strings escaped, `null`/`undefined` empty,
numbers bare. -/
def writeField : Value → List Char
  | .arr a => '"' :: jsonArrChars a ++ ['"']
  | .str s => escapeCsvSpecialChars s
  | .undef => []
  | .num n => intChars n

/-- `writeCsvRow`: the written fields joined with commas. -/
def writeCsvRow (vals : List Value) : List Char :=
  joinSep [','] (vals.map writeField)

/-- The text `exportTable` (`export.ts` lines 44-66) streams for
`exportToPath` with `gtfsOnly = false`: the header line (the schema's field
names joined with commas), then one line per stored entity in table
iteration order, each terminated by `'\n'`. -/
def exportContent (fields : List (List Char)) (entities : List Entity) :
    List Char :=
  joinSep [','] fields ++ '\n' ::
    (entities.map (fun e =>
      writeCsvRow (fields.map (fun f => entityGet e f)) ++ ['\n'])).flatten

/-- `OneIndexTable.exportToPath` (`make-table.ts` lines 178-184),
`gtfsOnly = false`: iterate the stored entities in insertion order. -/
def exportToPath (cfg : OneIndexCfg) (tbl : OneIndexMap) : List Char :=
  exportContent cfg.fieldNames (tbl.map Prod.snd)

/-! ### The two-level grouped-key table (`TwoIndexTable`) -/

/-- A two-level map: group id to (member id to entity). -/
abbrev TwoIndexMap := List (List Char × List (List Char × Entity))

/-- `TwoIndexConfig`: primary key (the grouping key) and secondary key,
both non-empty field lists. -/
structure TwoIndexCfg where
  tableName : List Char
  primaryKey : List (List Char)
  secondaryKey : List (List Char)

/-- `TwoIndexTable._getPrimaryKey` (`make-table.ts` lines 223-225). -/
def getPrimaryKey2 (cfg : TwoIndexCfg) (e : Entity) : List Char :=
  joinSep [keySep] (cfg.primaryKey.map (fun k => valueToString (entityGet e k)))

/-- `TwoIndexTable._getSecondaryKey` (`make-table.ts` lines 227-229). -/
def getSecondaryKey2 (cfg : TwoIndexCfg) (e : Entity) : List Char :=
  joinSep [keySep] (cfg.secondaryKey.map (fun k => valueToString (entityGet e k)))

/-- `TwoIndexTable.addParsedEntity` (`make-table.ts` lines 260-265): fetch or
create the group's inner map, set the member, store the inner map back. -/
def addParsedEntity2 (cfg : TwoIndexCfg) (tbl : TwoIndexMap) (e : Entity) :
    TwoIndexMap :=
  let inner := (mapGet tbl (getPrimaryKey2 cfg e)).getD []
  mapSet tbl (getPrimaryKey2 cfg e) (mapSet inner (getSecondaryKey2 cfg e) e)

/-- `TwoIndexTable.getWithFirstId` (`make-table.ts` lines 295-298): all
members of the group, or empty when the group is absent. -/
def getWithFirstId (tbl : TwoIndexMap) (id : List Char) : List Entity :=
  match mapGet tbl id with
  | some inner => inner.map Prod.snd
  | none => []

/-- `TwoIndexTable.deleteEntity` (`make-table.ts` lines 300-306): delete the
member from its group's inner map, then delete the group if its size reached
zero. -/
def deleteEntity2 (cfg : TwoIndexCfg) (tbl : TwoIndexMap) (e : Entity) :
    TwoIndexMap :=
  let pk := getPrimaryKey2 cfg e
  let tbl₁ :=
    match mapGet tbl pk with
    | some inner => mapSet tbl pk (mapDelete inner (getSecondaryKey2 cfg e))
    | none => tbl
  match mapGet tbl₁ pk with
  | some inner => if inner.length = 0 then mapDelete tbl₁ pk else tbl₁
  | none => tbl₁

/-! ### Definitions supporting the export/import round-trip analysis -/

/-- The string the parser recovers for one written field: quoted fields keep
their content exactly; bare fields are their own text (the round-trip
conditions require bare text to be trim-invariant); absent values come back
as the empty column. -/
def serializeParsed : Value → List Char
  | .str s => s
  | .num n => intChars n
  | .arr a => jsonArrChars a
  | .undef => []

/-- The raw row record the parser delivers for an exported entity: the
header's field names zipped against the re-parsed field texts. -/
def expectedRaw (fields : List (List Char)) (e : Entity) : Row :=
  zipRow fields (fields.map (fun f => serializeParsed (entityGet e f)))

/-- The writer quotes a string iff it contains a quote, comma or newline
(`escapeCsvSpecialChars`). -/
def hasSpecial (s : List Char) : Bool :=
  s.contains '"' || s.contains ',' || s.contains '\n'

/-- A string value survives the round trip: either it is quoted on export
(contains a special character, so it is reproduced exactly), or it is written
bare and must be trim-invariant. -/
def strRoundtrips : Value → Bool
  | .str s => hasSpecial s || trim s == s
  | _ => true

/-- A character that is not whitespace, not a delimiter and not a quote —
safe in a bare field and in a header name. -/
def plainChar (c : Char) : Bool :=
  !isJsWS c && (charDelim? c).isNone && c ≠ '"'

/-- An entity a table can export and reimport losslessly at the text level:
every string field is round-trippable, and the written line is not mistaken
for a blank line (which only threatens single-column schemas whose sole
field serializes to the empty string). -/
def exportableEntity (fields : List (List Char)) (e : Entity) : Bool :=
  fields.all (fun f => strRoundtrips (entityGet e f)) &&
    (2 ≤ fields.length ||
      match fields with
      | [f] => writeField (entityGet e f) ≠ []
      | _ => false)

/-- Header names that re-parse to themselves: nonempty, no delimiter, no
quote, trim-invariant. -/
def headerOk (fields : List (List Char)) : Bool :=
  fields ≠ [] && fields.all (fun f => f ≠ [] && f.all plainChar)

/-- The invariant of every table populated through
`addEntity`/`addParsedEntity`: entries are stored under the key recomputed
from the entity, and keys are unique. -/
def WellFormedTable (cfg : OneIndexCfg) (tbl : OneIndexMap) : Prop :=
  (∀ p ∈ tbl, p.1 = getKey cfg p.2) ∧ (tbl.map Prod.fst).Nodup

/-- The tail of a run of `runTokens` from the moment a row's columns are
complete and its terminator is being resolved: capture the header or emit
the row through the callback, then continue with the remaining spans. -/
def emitRow (cb : Row → CbSignal) (th : Option (List Char → List Char))
    (hdr : List (List Char)) (cols : List (List Char)) (toks : List Tok) :
    RunOut × List Row :=
  match finalizeRow th ⟨.text, hdr, cols, []⟩ with
  | (st₂, none) => runTokens cb th st₂ toks
  | (st₂, some r) =>
    match cb r with
    | .next =>
      let (o, rs) := runTokens cb th st₂ toks
      (o, r :: rs)
    | .stop => (.stopped, [r])
    | .raise e => (.raised e, [r])

/-! ### Concrete instances used in witnesses and counterexamples -/

/-- A row callback that always returns normally (e.g. the counting callback
of `ItineraryTgtfs.process`). -/
def cbNext : Row → CbSignal := fun _ => .next

/-- A row callback that returns `-1` on the first row it receives. -/
def cbStop : Row → CbSignal := fun _ => .stop

/-- Field access on a raw row record. -/
def rawGet (r : Row) (k : List Char) : Option (List Char) :=
  match r.find? (fun p => p.1 = k) with
  | some p => p.2
  | none => none

/-- A minimal concrete Schema Validator in the style of the repo's zod
schemas (`zod-helpers.ts`): field `id` required (`requiredString`), field
`v` optional (`optionalString`; the parser already maps empty to absent). -/
def demoValidate : Row → Except (List Char) Entity := fun r =>
  match rawGet r ['i', 'd'] with
  | some s =>
    .ok [(['i', 'd'], .str s),
         (['v'], match rawGet r ['v'] with
                 | some t => .str t
                 | none => .undef)]
  | none => .error ['i', 'd', '?']

/-- A concrete single-key table configuration over that validator, keyed on
`id`, with no foreign keys. -/
def demoCfg : OneIndexCfg :=
  { tableName := ['t'], fieldNames := [['i', 'd'], ['v']],
    primaryKey := [['i', 'd']], foreignKeys := [], interFeedKeys := [],
    validate := demoValidate, transformHeader := none }

/-- A Registry with both flags off and no tables. -/
def demoReg : Registry := ⟨false, false, []⟩

/-- A Registry in transcode mode. -/
def demoRegT : Registry := ⟨true, false, []⟩

/-- A concrete two-level table configuration: grouped on `p`, member key
`s`. -/
def demoCfg2 : TwoIndexCfg := ⟨['g'], [['p']], [['s']]⟩

/-- A member entity for the two-level demo table. -/
def demoEnt2 : Entity := [(['p'], .str ['x']), (['s'], .str ['y'])]

/-- The two-level demo table holding just that member. -/
def demoTbl2 : TwoIndexMap := addParsedEntity2 demoCfg2 [] demoEnt2

/-- A validator for a one-field schema whose field `f` is an optional
foreign-key string. -/
def demoFkValidate : Row → Except (List Char) Entity := fun r =>
  .ok [(['f'], match rawGet r ['f'] with
               | some s => .str s
               | none => .undef)]

/-- A table config declaring `f` as a foreign key into table `r`. -/
def demoCfgFk : OneIndexCfg :=
  { tableName := ['t'], fieldNames := [['f']], primaryKey := [['f']],
    foreignKeys := [(['f'], ['r'])], interFeedKeys := [],
    validate := demoFkValidate, transformHeader := none }

/-- The same config but with `f` marked inter-feed. -/
def demoCfgFkInterfeed : OneIndexCfg :=
  { demoCfgFk with interFeedKeys := [['f']] }

/-- A Registry owning an empty table `r`. -/
def demoRegFk : Registry := ⟨false, false, [(['r'], [])]⟩

/-- The same Registry but allowing inter-feed keys. -/
def demoRegFkAllow : Registry := ⟨false, true, [(['r'], [])]⟩

/-- A stored entity of the demo schema whose `v` value contains a comma, so
the writer quotes it on export. -/
def demoRtEnt : Entity := [(['i', 'd'], .str ['1']), (['v'], .str ['a', ',', 'b'])]

/-- The one-entity demo table holding `demoRtEnt` under its key `1`. -/
def demoRtTbl : OneIndexMap := [(['1'], demoRtEnt)]

/-- An entity whose `v` value ends in a space: the writer emits it bare (no
special character), and the parser trims the bare field at reimport. -/
def demoWsEnt : Entity := [(['i', 'd'], .str ['1']), (['v'], .str ['a', ' '])]

/-- The table holding the whitespace-tailed entity under its key. -/
def demoWsTbl : OneIndexMap := [(['1'], demoWsEnt)]

/-! ## Lemmas about the tokenizer -/

/-- A string containing neither delimiter. -/
def noDelim (l : List Char) : Bool := l.all fun c => (charDelim? c).isNone

theorem charDelim?_delimChar (d : Delim) : charDelim? (delimChar d) = some d := by
  cases d <;> rfl

theorem delimChar_ne_quote (d : Delim) : delimChar d ≠ '"' := by
  cases d <;> decide

theorem noDelim_nil : noDelim [] = true := rfl

theorem noDelim_cons {c : Char} {l : List Char} :
    noDelim (c :: l) = ((charDelim? c).isNone && noDelim l) := by
  simp [noDelim]

theorem noDelim_append {a b : List Char} :
    noDelim (a ++ b) = (noDelim a && noDelim b) := by
  simp [noDelim, List.all_append]

theorem tokenize_noDelim {x : List Char} (h : noDelim x) : tokenize x = ([], x) := by
  induction x with
  | nil => rfl
  | cons c rest ih =>
    rw [noDelim_cons, Bool.and_eq_true] at h
    rw [tokenize, ih h.2]
    rcases hc : charDelim? c with _ | d
    · rfl
    · rw [hc] at h
      simp at h

theorem tokenize_cons (c : Char) (rest : List Char) :
    tokenize (c :: rest) =
      match charDelim? c with
      | some d => (([], d) :: (tokenize rest).1, (tokenize rest).2)
      | none =>
        match (tokenize rest).1 with
        | [] => ([], c :: (tokenize rest).2)
        | (f, d) :: ts2 => ((c :: f, d) :: ts2, (tokenize rest).2) := by
  rcases h : tokenize rest with ⟨ts, tail⟩
  rw [tokenize, h]

theorem tokenize_append (a b : List Char) :
    tokenize (a ++ b) =
      ((tokenize a).1 ++ (tokenize ((tokenize a).2 ++ b)).1,
       (tokenize ((tokenize a).2 ++ b)).2) := by
  induction a with
  | nil => simp [tokenize]
  | cons c a ih =>
    rcases hta : tokenize a with ⟨ta, ra⟩
    rcases htb : tokenize (ra ++ b) with ⟨t1, r1⟩
    rw [hta] at ih
    simp only [htb] at ih
    show tokenize (c :: (a ++ b)) = _
    rw [tokenize_cons, ih, tokenize_cons c a, hta]
    rcases hc : charDelim? c with _ | d
    · rcases ht : ta with _ | ⟨⟨f, d⟩, ts2⟩
      · simp only []
        rw [show (c :: ra) ++ b = c :: (ra ++ b) by simp, tokenize_cons, hc, htb]
        rcases t1 with _ | ⟨⟨f, d⟩, ts2⟩ <;> simp
      · simp [htb]
    · simp [htb]

theorem charDelim?_eq_some {c : Char} {d : Delim} (h : charDelim? c = some d) :
    delimChar d = c := by
  unfold charDelim? at h
  split at h
  · cases h
    simp_all [delimChar]
  · split at h
    · cases h
      simp_all [delimChar]
    · cases h

theorem tokenize_noDelim_cons {x : List Char} (h : noDelim x) (d : Delim)
    (y : List Char) :
    tokenize (x ++ delimChar d :: y) =
      ((x, d) :: (tokenize y).1, (tokenize y).2) := by
  induction x with
  | nil => rw [List.nil_append, tokenize_cons, charDelim?_delimChar]
  | cons c x ih =>
    rw [noDelim_cons, Bool.and_eq_true] at h
    rw [List.cons_append, tokenize_cons, ih h.2]
    rcases hc : charDelim? c with _ | d'
    · rfl
    · rw [hc] at h
      simp at h

theorem tokenize_tail_noDelim (l : List Char) : noDelim (tokenize l).2 := by
  induction l with
  | nil => rfl
  | cons c l ih =>
    rw [tokenize_cons]
    rcases hc : charDelim? c with _ | d
    · rcases ht : (tokenize l).1 with _ | ⟨⟨f, d⟩, ts2⟩
      · simp only [noDelim_cons, hc, Option.isNone_none, Bool.true_and]
        exact ih
      · simpa [ht] using ih
    · simpa using ih

/-- The text the processed spans of a chunk cover: each span followed by its
delimiter. -/
def flattenToks (ts : List Tok) : List Char :=
  (ts.map (fun t => t.1 ++ [delimChar t.2])).flatten

theorem tokenize_flatten (l : List Char) :
    flattenToks (tokenize l).1 ++ (tokenize l).2 = l := by
  induction l with
  | nil => rfl
  | cons c l ih =>
    rw [tokenize_cons]
    rcases hc : charDelim? c with _ | d
    · rcases ht : (tokenize l).1 with _ | ⟨⟨f, d⟩, ts2⟩
      · rw [ht] at ih
        simpa [flattenToks] using ih
      · rw [ht] at ih
        simp only [flattenToks, List.map_cons, List.flatten_cons, List.append_assoc,
          List.cons_append] at ih ⊢
        rw [ih]
    · rw [← charDelim?_eq_some hc]
      simp only [flattenToks, List.map_cons, List.flatten_cons, List.append_assoc,
        List.cons_append, List.nil_append] at ih ⊢
      rw [ih]

theorem flattenToks_ends {ts : List Tok} (h : ts ≠ []) :
    ∃ q d, flattenToks ts = q ++ [delimChar d] := by
  induction ts with
  | nil => exact absurd rfl h
  | cons t ts ih =>
    rcases hts : ts with _ | ⟨t', ts'⟩
    · exact ⟨t.1, t.2, by simp [flattenToks]⟩
    · obtain ⟨q, d, hq⟩ := ih (by simp [hts])
      rw [← hts]
      refine ⟨t.1 ++ [delimChar t.2] ++ q, d, ?_⟩
      simp only [flattenToks, List.map_cons, List.flatten_cons] at hq ⊢
      rw [hq]
      simp

/-! ## Chunk-boundary equivalence -/

theorem runTokens_append (cb : Row → CbSignal) (th : Option (List Char → List Char))
    (t₁ t₂ : List Tok) (st : CsvParseState) :
    runTokens cb th st (t₁ ++ t₂) =
      match runTokens cb th st t₁ with
      | (.done st', rows) =>
        ((runTokens cb th st' t₂).1, rows ++ (runTokens cb th st' t₂).2)
      | early => early := by
  induction t₁ generalizing st with
  | nil => simp [runTokens]
  | cons t ts ih =>
    rw [List.cons_append]
    simp only [runTokens]
    cases hst : stepToken th st t with
    | fail => rfl
    | ok st' r =>
      cases r with
      | none =>
        dsimp only
        rw [ih st']
      | some r =>
        dsimp only
        cases hcb : cb r with
        | next =>
          dsimp only
          rw [ih st']
          rcases hrun : runTokens cb th st' ts with ⟨o, rows⟩
          rcases o with st'' | _ | _ | e <;> simp
        | stop => rfl
        | raise e => rfl

theorem parseChunk_append (a b : List Char) (cb : Row → CbSignal)
    (st : CsvParseState) (th : Option (List Char → List Char)) :
    parseChunk (a ++ b) cb st th =
      match parseChunk a cb st th with
      | (.done st₁ r₁, rows₁) =>
        ((parseChunk (r₁ ++ b) cb st₁ th).1,
         rows₁ ++ (parseChunk (r₁ ++ b) cb st₁ th).2)
      | early => early := by
  unfold parseChunk
  have hab := tokenize_append a b
  rw [hab]
  simp only []
  rw [runTokens_append]
  rcases hr1 : runTokens cb th st (tokenize a).1 with ⟨o, rows⟩
  rcases o with st₁ | _ | _ | e
  · dsimp only
    rcases hr2 : runTokens cb th st₁ (tokenize ((tokenize a).2 ++ b)).1 with ⟨o₂, rows₂⟩
    rcases o₂ with st₂ | _ | _ | e <;> rfl
  all_goals rfl

/-- The remainder `parseChunk` returns is delimiter-free: it is the text
after the chunk's last delimiter. -/
theorem parseChunk_done_noDelim {csv : List Char} {cb : Row → CbSignal}
    {st : CsvParseState} {th : Option (List Char → List Char)}
    {st₁ : CsvParseState} {rem₁ : List Char} {rows : List Row}
    (h : parseChunk csv cb st th = (.done st₁ rem₁, rows)) : noDelim rem₁ := by
  unfold parseChunk at h
  rcases ht : tokenize csv with ⟨ts, tail⟩
  rw [ht] at h
  rcases hr : runTokens cb th st ts with ⟨o, rws⟩
  rw [hr] at h
  have htail : noDelim tail := by
    have := tokenize_tail_noDelim csv
    rw [ht] at this
    exact this
  rcases o with st' | _ | _ | e <;> simp only [] at h
  · cases h
    exact htail
  · cases h
  · cases h
  · cases h

/-- Feeding the chunks sequentially (remainder prepended, state carried) is
the same as one `parseChunk` call on the concatenation, provided the starting
remainder contains no delimiter (true of `''` and of every remainder the
parser returns). -/
theorem parseSeq_eq_single (cb : Row → CbSignal) (th : Option (List Char → List Char))
    (chunks : List (List Char)) (st : CsvParseState) (rem : List Char)
    (h : noDelim rem) :
    parseSeq cb th st rem chunks = parseChunk (rem ++ chunks.flatten) cb st th := by
  induction chunks generalizing st rem with
  | nil =>
    rw [parseSeq, List.flatten_nil, List.append_nil]
    unfold parseChunk
    rw [tokenize_noDelim h]
    rfl
  | cons c cs ih =>
    rw [parseSeq, List.flatten_cons, ← List.append_assoc]
    conv_rhs => rw [parseChunk_append]
    rcases hp : parseChunk (rem ++ c) cb st th with ⟨o, rows⟩
    rcases o with ⟨st₁, rem₁⟩ | _ | _ | e
    · dsimp only
      rw [ih st₁ rem₁ (parseChunk_done_noDelim hp)]
    all_goals rfl

/-! ## Claim C1 -/

/-- **C1.** For every file content and every way of splitting it into chunks
(including splits mid-quoted-field, mid-escaped-quote, or mid-header),
running `parseChunk` sequentially over the chunks — each call receiving the
previous call's remainder prepended to the next chunk and the carried state —
delivers to the row callback exactly the same sequence of rows as a single
`parseChunk` call on the whole content. -/
theorem chunking_preserves_row_sequence (content : List Char)
    (chunks : List (List Char)) (cb : Row → CbSignal)
    (th : Option (List Char → List Char)) (h : chunks.flatten = content) :
    (parseSeq cb th initState [] chunks).2 =
      (parseChunk content cb initState th).2 := by
  subst h
  rw [parseSeq_eq_single cb th chunks initState [] rfl]
  rfl

/-- Witness for C1: a content split mid-header and mid-escaped-quote. -/
theorem chunking_preserves_row_sequence_witness :
    (["he".data, "ader\n\"x\"".data, "\"y,z\"\n".data] : List (List Char)).flatten =
      "header\n\"x\"\"y,z\"\n".data ∧
    (parseSeq cbNext none initState []
        ["he".data, "ader\n\"x\"".data, "\"y,z\"\n".data]).2 =
      (parseChunk "header\n\"x\"\"y,z\"\n".data cbNext initState none).2 :=
  ⟨by decide,
   chunking_preserves_row_sequence _ _ cbNext none (by decide)⟩

/-! ## Claim C8 -/

/-- **C8 (amended).** Whenever `parseChunk` returns normally (the callback
did not signal stop and nothing was thrown), the returned value includes the
remainder: a delimiter-free suffix of the input such that the processed
prefix before it is empty or ends with a delimiter — i.e. all text after the
last fully-resolved delimiter or terminator. -/
theorem parseChunk_remainder_characterization (csv : List Char)
    (cb : Row → CbSignal) (st st' : CsvParseState)
    (th : Option (List Char → List Char)) (rem : List Char) (rows : List Row)
    (h : parseChunk csv cb st th = (.done st' rem, rows)) :
    noDelim rem ∧
      ∃ p, csv = p ++ rem ∧ (p = [] ∨ ∃ q d, p = q ++ [delimChar d]) := by
  have hrem : rem = (tokenize csv).2 := by
    unfold parseChunk at h
    rcases hr : runTokens cb th st (tokenize csv).1 with ⟨o, rws⟩
    rw [hr] at h
    rcases o with st₁ | _ | _ | e <;> simp only [] at h
    · cases h
      rfl
    all_goals cases h
  constructor
  · rw [hrem]
    exact tokenize_tail_noDelim csv
  · refine ⟨flattenToks (tokenize csv).1, ?_, ?_⟩
    · rw [hrem, tokenize_flatten]
    · rcases ht : (tokenize csv).1 with _ | ⟨t, ts⟩
      · left
        rfl
      · right
        exact flattenToks_ends (by simp)

/-- Counterexample for C8 as stated: when the callback signals stop,
`parseChunk` returns the stop marker `-1`, which carries no remainder — here
the unconsumed text `XYZ` after the last newline is discarded. -/
theorem parseChunk_stop_discards_remainder :
    parseChunk "h\na\nXYZ".data cbStop initState none =
      (ParseOutcome.stopped, [[(['h'], some ['a'])]]) := by
  decide

/-- Witness for C8 (amended): a concrete chunk with trailing text `XY` after
the last terminator. -/
theorem parseChunk_remainder_characterization_witness :
    parseChunk "a,b\nXY".data cbNext initState none =
      (ParseOutcome.done ⟨.text, [['a'], ['b']], [], []⟩ "XY".data, []) ∧
    (noDelim "XY".data ∧
      ∃ p, "a,b\nXY".data = p ++ "XY".data ∧
        (p = [] ∨ ∃ q d, p = q ++ [delimChar d])) :=
  ⟨by decide,
   parseChunk_remainder_characterization "a,b\nXY".data cbNext initState
     ⟨.text, [['a'], ['b']], [], []⟩ none "XY".data [] (by decide)⟩

/-! ## Claim C4 -/

/-- A span processed in `text` state that contains a quote but whose trimmed
text does not open with one makes the loop body throw, on either
delimiter — the two `throw new ParseSyntaxError()` sites of the comma and
newline branches. -/
theorem step_bare_quote {w : List Char} {st : CsvParseState} (d : Delim)
    (hst : st.readingState = .text) (hq : w.contains '"' = true)
    (hh : (trimStart w).head? ≠ some '"')
    (th : Option (List Char → List Char)) :
    stepToken th st (w, d) = .fail := by
  cases d <;>
    (unfold stepToken
     dsimp only
     rw [hst, hq]
     simp [hh])

/-- **C4.** Quote handling: the field `"a""b"` parses to the value `a"b`
(doubled quotes un-escaped); the quoted field `"a,b"` parses as the single
value `a,b` (the comma is literal content); and for EVERY unquoted field
containing a bare quote character — any delimiter-free span that holds a
quote and whose trimmed text does not start with one — arriving on either
delimiter in `text` state, under any carried state, callback, header
transform and following input, the parser throws a parse error. -/
theorem quote_handling :
    (parseChunk "h\n\"a\"\"b\"\n".data cbNext initState none).2 =
      [[(['h'], some ['a', '"', 'b'])]] ∧
    (parseChunk "h\n\"a,b\"\n".data cbNext initState none).2 =
      [[(['h'], some ['a', ',', 'b'])]] ∧
    (∀ (w : List Char) (st : CsvParseState) (d : Delim) (cb : Row → CbSignal)
       (th : Option (List Char → List Char)) (rest : List Char),
      st.readingState = .text → noDelim w = true → w.contains '"' = true →
      (trimStart w).head? ≠ some '"' →
      (parseChunk (w ++ delimChar d :: rest) cb st th).1 =
        ParseOutcome.failed) := by
  refine ⟨by decide, by decide, ?_⟩
  intro w st d cb th rest hst hnd hq hh
  unfold parseChunk
  rw [tokenize_noDelim_cons hnd d rest]
  simp only [runTokens]
  rw [step_bare_quote d hst hq hh th]

/-- Witness for C4's universal conjunct: the unquoted field `x"y` on a
newline from the initial state. -/
theorem quote_handling_witness :
    (initState.readingState = RState.text ∧
     noDelim ['x', '"', 'y'] = true ∧
     (['x', '"', 'y'] : List Char).contains '"' = true ∧
     (trimStart ['x', '"', 'y']).head? ≠ some '"') ∧
    (parseChunk (['x', '"', 'y'] ++ delimChar .newline :: []) cbNext
        initState none).1 = ParseOutcome.failed :=
  ⟨⟨rfl, by decide, by decide, by decide⟩,
   quote_handling.2.2 ['x', '"', 'y'] initState .newline cbNext none []
     rfl (by decide) (by decide) (by decide)⟩

/-! ## Lemmas about trailing-quote runs, escaping and trimming -/

theorem takeWhile_append_all {p : Char → Bool} {l₁ : List Char} (l₂ : List Char)
    (h : ∀ a ∈ l₁, p a = true) :
    (l₁ ++ l₂).takeWhile p = l₁ ++ l₂.takeWhile p := by
  induction l₁ with
  | nil => rfl
  | cons c l ih =>
    rw [List.cons_append, List.takeWhile_cons, h c (by simp), ih fun a ha => h a (by simp [ha])]
    rfl

theorem takeWhile_append_stop {p : Char → Bool} {l₁ : List Char} (l₂ : List Char)
    (h : ¬ ∀ a ∈ l₁, p a = true) :
    (l₁ ++ l₂).takeWhile p = l₁.takeWhile p := by
  induction l₁ with
  | nil => exact absurd (by simp) h
  | cons c l ih =>
    rw [List.cons_append, List.takeWhile_cons, List.takeWhile_cons]
    rcases hc : p c with _ | _
    · rfl
    · have hnot : ¬ ∀ a ∈ l, p a = true := fun hall => h fun a ha => by
        rcases List.mem_cons.mp ha with rfl | ha'
        · exact hc
        · exact hall a ha'
      rw [ih hnot]

theorem dropWhile_append_all {p : Char → Bool} {l₁ : List Char} (l₂ : List Char)
    (h : ∀ a ∈ l₁, p a = true) :
    (l₁ ++ l₂).dropWhile p = l₂.dropWhile p := by
  induction l₁ with
  | nil => rfl
  | cons c l ih =>
    rw [List.cons_append, List.dropWhile_cons, h c (by simp)]
    exact ih fun a ha => h a (by simp [ha])

theorem dropWhile_append_stop {p : Char → Bool} {l₁ : List Char} (l₂ : List Char)
    (h : ¬ ∀ a ∈ l₁, p a = true) :
    (l₁ ++ l₂).dropWhile p = l₁.dropWhile p ++ l₂ := by
  induction l₁ with
  | nil => exact absurd (by simp) h
  | cons c l ih =>
    rw [List.cons_append, List.dropWhile_cons, List.dropWhile_cons]
    rcases hc : p c with _ | _
    · simp
    · have hnot : ¬ ∀ a ∈ l, p a = true := fun hall => h fun a ha => by
        rcases List.mem_cons.mp ha with rfl | ha'
        · exact hc
        · exact hall a ha'
      simp only [if_pos rfl]
      exact ih hnot

theorem tq_append_quote (x : List Char) :
    trailingQuotes (x ++ ['"']) = trailingQuotes x + 1 := by
  unfold trailingQuotes
  rw [List.reverse_append]
  simp [List.takeWhile_cons]

theorem tq_append_nonquote {c : Char} (x : List Char) (hc : c ≠ '"') :
    trailingQuotes (x ++ [c]) = 0 := by
  unfold trailingQuotes
  rw [List.reverse_append]
  simp [List.takeWhile_cons, hc]

theorem tq_all {l : List Char} (h : ∀ a ∈ l, a = '"') :
    trailingQuotes l = l.length := by
  unfold trailingQuotes
  rw [List.takeWhile_eq_self_iff.mpr fun a ha => by
    simp [h a (List.mem_reverse.mp ha)]]
  exact l.length_reverse

theorem tq_le (l : List Char) : trailingQuotes l ≤ l.length := by
  unfold trailingQuotes
  calc (l.reverse.takeWhile _).length ≤ l.reverse.length :=
        List.length_le_of_sublist (List.takeWhile_sublist _)
    _ = l.length := l.length_reverse

theorem tq_cons (c : Char) (t : List Char) :
    trailingQuotes (c :: t) =
      if t.all (fun a => a = '"') then
        (if c = '"' then t.length + 1 else t.length)
      else trailingQuotes t := by
  unfold trailingQuotes
  rw [show (c :: t).reverse = t.reverse ++ [c] by simp]
  rcases hall : t.all (fun a => a = '"') with _ | _
  · rw [if_neg (by simp [hall])]
    rw [takeWhile_append_stop]
    intro hcontra
    have hat : t.all (fun a => a = '"') = true := by
      rw [List.all_eq_true]
      intro a ha
      simpa using hcontra a (List.mem_reverse.mpr ha)
    rw [hat] at hall
    cases hall
  · rw [if_pos (by simp [hall])]
    rw [takeWhile_append_all]
    · by_cases hc : c = '"'
      · subst hc
        rw [if_pos rfl]
        simp [List.takeWhile_cons]
      · rw [if_neg hc]
        simp [List.takeWhile_cons, hc]
    · intro a ha
      rw [List.all_eq_true] at hall
      simpa using hall a (List.mem_reverse.mp ha)

theorem tq_eq_length_allQ {l : List Char} (h : trailingQuotes l = l.length) :
    ∀ a ∈ l, a = '"' := by
  unfold trailingQuotes at h
  rw [← l.length_reverse] at h
  have hself : l.reverse.takeWhile (fun c => c = '"') = l.reverse :=
    (List.takeWhile_sublist _).eq_of_length h
  intro a ha
  have : a ∈ l.reverse.takeWhile (fun c => c = '"') := by
    rw [hself]
    exact List.mem_reverse.mpr ha
  simpa using List.mem_takeWhile_imp this

theorem wfEsc_cons_nonquote {c : Char} (hc : c ≠ '"') (t : List Char) :
    wfEsc (c :: t) = wfEsc t := by
  rcases t with _ | ⟨c', t'⟩
  · simp [wfEsc, hc]
  · simp [wfEsc, hc]

theorem wfEsc_quote_pair (t : List Char) :
    wfEsc ('"' :: '"' :: t) = wfEsc t := by
  simp [wfEsc]

theorem wf_allQ_even : ∀ {l : List Char}, wfEsc l = true →
    (∀ a ∈ l, a = '"') → l.length % 2 = 0
  | [], _, _ => rfl
  | [c], hwf, hall => by
    have hc := hall c (by simp)
    subst hc
    simp [wfEsc] at hwf
  | c :: c' :: r, hwf, hall => by
    have hc := hall c (by simp)
    have hc' := hall c' (by simp)
    subst hc
    subst hc'
    rw [wfEsc_quote_pair] at hwf
    have hr := wf_allQ_even hwf fun a ha => hall a (by simp [ha])
    simp only [List.length_cons]
    omega

theorem wf_cons_quote {c' : Char} {r : List Char}
    (hwf : wfEsc ('"' :: c' :: r) = true) : c' = '"' ∧ wfEsc r = true := by
  have h : wfEsc ('"' :: c' :: r) = (decide (c' = '"') && wfEsc r) := by
    simp [wfEsc]
  rw [h, Bool.and_eq_true, decide_eq_true_eq] at hwf
  exact hwf

theorem wf_trailing_even : ∀ {l : List Char}, wfEsc l = true →
    trailingQuotes l % 2 = 0
  | [], _ => rfl
  | [c], hwf => by
    simp only [wfEsc, decide_eq_true_eq] at hwf
    rw [tq_cons]
    simp [hwf]
  | c :: c' :: r, hwf => by
    rw [tq_cons]
    rcases hall : (c' :: r).all (fun a => a = '"') with _ | _
    · rw [if_neg (by simp [hall])]
      by_cases hc : c = '"'
      · subst hc
        obtain ⟨hc', hwfr⟩ := wf_cons_quote hwf
        subst hc'
        rw [tq_cons]
        have hallr : r.all (fun a => a = '"') = false := by
          rw [List.all_cons] at hall
          simpa using hall
        rw [if_neg (by simp [hallr])]
        exact wf_trailing_even hwfr
      · rw [wfEsc_cons_nonquote hc] at hwf
        exact wf_trailing_even hwf
    · rw [if_pos (by simp_all)]
      by_cases hc : c = '"'
      · subst hc
        have hlen := wf_allQ_even hwf (by
          rw [List.all_eq_true] at hall
          intro a ha
          rcases List.mem_cons.mp ha with rfl | ha'
          · rfl
          · simpa using hall a ha')
        rw [if_pos rfl]
        simp only [List.length_cons] at hlen ⊢
        omega
      · rw [if_neg hc]
        rw [wfEsc_cons_nonquote hc] at hwf
        exact wf_allQ_even hwf (by
          rw [List.all_eq_true] at hall
          intro a ha
          simpa using hall a ha)

theorem wfEsc_append_delim : ∀ {x : List Char} (c : Char) {y : List Char},
    c ≠ '"' → wfEsc (x ++ c :: y) = (wfEsc x && wfEsc y)
  | [], c, y, hc => by
    rw [List.nil_append, wfEsc_cons_nonquote hc]
    simp [wfEsc]
  | [a], c, y, hc => by
    by_cases ha : a = '"'
    · subst ha
      rcases y with _ | ⟨y₀, y'⟩
      · simp [wfEsc, hc]
      · simp only [List.cons_append, List.nil_append]
        have h1 : wfEsc ('"' :: c :: y₀ :: y') = (decide (c = '"') && wfEsc (y₀ :: y')) := by
          simp [wfEsc]
        rw [h1]
        simp [wfEsc, hc]
    · rw [show ([a] ++ c :: y) = a :: c :: y by simp, wfEsc_cons_nonquote ha,
        wfEsc_cons_nonquote hc]
      simp [wfEsc, ha]
  | a :: b :: x', c, y, hc => by
    by_cases ha : a = '"'
    · subst ha
      have h1 : wfEsc ('"' :: b :: (x' ++ c :: y)) =
          (decide (b = '"') && wfEsc (x' ++ c :: y)) := by
        simp [wfEsc]
      have h2 : wfEsc ('"' :: b :: x') = (decide (b = '"') && wfEsc x') := by
        simp [wfEsc]
      rw [List.cons_append, List.cons_append, h1, h2,
        wfEsc_append_delim c hc, Bool.and_assoc]
    · rw [List.cons_append, wfEsc_cons_nonquote ha, wfEsc_cons_nonquote ha]
      exact wfEsc_append_delim c hc

theorem wfEsc_append_noquote {y : List Char} (hy : ∀ a ∈ y, a ≠ '"')
    {x : List Char} (h : wfEsc (x ++ y) = true) : wfEsc x = true := by
  rcases y with _ | ⟨c, y'⟩
  · rw [List.append_nil] at h
    exact h
  · rw [wfEsc_append_delim c (hy c (by simp)), Bool.and_eq_true] at h
    exact h.1

theorem wfEsc_noquote : ∀ {l : List Char}, (∀ a ∈ l, a ≠ '"') → wfEsc l = true
  | [], _ => rfl
  | c :: t, h => by
    rw [wfEsc_cons_nonquote (h c (by simp))]
    exact wfEsc_noquote fun a ha => h a (by simp [ha])

theorem wfEsc_escQ (s : List Char) : wfEsc (escQ s) = true := by
  induction s with
  | nil => rfl
  | cons c s ih =>
    by_cases hc : c = '"'
    · subst hc
      rw [show escQ ('"' :: s) = '"' :: '"' :: escQ s by simp [escQ],
        wfEsc_quote_pair]
      exact ih
    · rw [show escQ (c :: s) = c :: escQ s by simp [escQ, hc],
        wfEsc_cons_nonquote hc]
      exact ih

theorem unescQ_cons_nonquote {c : Char} (hc : c ≠ '"') (t : List Char) :
    unescQ (c :: t) = c :: unescQ t := by
  rcases t with _ | ⟨c', t'⟩
  · rfl
  · rw [unescQ, if_neg (fun hand => hc hand.1)]

theorem unescQ_quote_pair (r : List Char) :
    unescQ ('"' :: '"' :: r) = '"' :: unescQ r := by
  rw [unescQ, if_pos ⟨rfl, rfl⟩]

theorem unescQ_escQ (s : List Char) : unescQ (escQ s) = s := by
  induction s with
  | nil => rfl
  | cons c s ih =>
    by_cases hc : c = '"'
    · subst hc
      rw [show escQ ('"' :: s) = '"' :: '"' :: escQ s by simp [escQ]]
      rw [unescQ_quote_pair, ih]
    · rw [show escQ (c :: s) = c :: escQ s by simp [escQ, hc],
        unescQ_cons_nonquote hc, ih]

theorem unescQ_noquote : ∀ {l : List Char}, (∀ a ∈ l, a ≠ '"') → unescQ l = l
  | [], _ => rfl
  | c :: t, h => by
    rw [unescQ_cons_nonquote (h c (by simp))]
    rw [unescQ_noquote fun a ha => h a (by simp [ha])]

theorem escQ_noquote : ∀ {l : List Char}, (∀ a ∈ l, a ≠ '"') → escQ l = l
  | [], _ => rfl
  | c :: t, h => by
    rw [show escQ (c :: t) = c :: escQ t by simp [escQ, h c (by simp)]]
    rw [escQ_noquote fun a ha => h a (by simp [ha])]

theorem ws_ne_quote {c : Char} (h : isJsWS c = true) : c ≠ '"' := by
  intro hc
  subst hc
  exact absurd h (by decide)

theorem trimStart_cons_nonWS {c : Char} (hc : isJsWS c = false) (t : List Char) :
    trimStart (c :: t) = c :: t := by
  simp [trimStart, List.dropWhile_cons, hc]

theorem trimEnd_append_nonWS {c : Char} (hc : isJsWS c = false) (x : List Char) :
    trimEnd (x ++ [c]) = x ++ [c] := by
  unfold trimEnd
  rw [List.reverse_append]
  simp [List.dropWhile_cons, hc]

theorem trimEnd_cons_nonWS {c : Char} (hc : isJsWS c = false) (t : List Char) :
    trimEnd (c :: t) = c :: trimEnd t := by
  unfold trimEnd
  rw [show (c :: t).reverse = t.reverse ++ [c] by simp]
  by_cases hall : ∀ a ∈ t.reverse, isJsWS a = true
  · rw [dropWhile_append_all _ hall]
    have ht : (List.dropWhile isJsWS t.reverse).reverse = [] := by
      rw [List.dropWhile_eq_nil_iff.mpr hall]
      rfl
    rw [ht]
    simp [List.dropWhile_cons, hc]
  · rw [dropWhile_append_stop _ hall]
    rw [List.reverse_append]
    simp

theorem trimEnd_decomp (l : List Char) :
    ∃ w, l = trimEnd l ++ w ∧ ∀ a ∈ w, isJsWS a = true := by
  refine ⟨(l.reverse.takeWhile isJsWS).reverse, ?_, ?_⟩
  · have h : l.reverse.takeWhile isJsWS ++ l.reverse.dropWhile isJsWS = l.reverse :=
      List.takeWhile_append_dropWhile isJsWS l.reverse
    conv_lhs => rw [← List.reverse_reverse l, ← h]
    rw [List.reverse_append]
    rfl
  · intro a ha
    exact List.mem_takeWhile_imp (List.mem_reverse.mp ha)

theorem trimStart_eq_self {l : List Char} (h : ∀ a ∈ l, isJsWS a = false) :
    trimStart l = l := by
  rcases l with _ | ⟨c, t⟩
  · rfl
  · exact trimStart_cons_nonWS (h c (by simp)) t

theorem trimEnd_eq_self {l : List Char} (h : ∀ a ∈ l, isJsWS a = false) :
    trimEnd l = l := by
  unfold trimEnd
  rcases hl : l.reverse with _ | ⟨c, t⟩
  · have h0 : l = [] := by simpa using congrArg List.reverse hl
    simp [h0]
  · have hc : isJsWS c = false := h c (List.mem_reverse.mp (by rw [hl]; simp))
    rw [List.dropWhile_cons, hc]
    simp only [Bool.false_eq_true, if_false]
    rw [← hl]
    simp

theorem trim_eq_self {l : List Char} (h : ∀ a ∈ l, isJsWS a = false) :
    trim l = l := by
  unfold trim
  rw [trimStart_eq_self h, trimEnd_eq_self h]

/-! ## The four closing-condition facts behind the parser's quote handling -/

theorem wf_trimEnd {e : List Char} (hwf : wfEsc e = true) :
    wfEsc (trimEnd e) = true := by
  obtain ⟨w, hdecomp, hws⟩ := trimEnd_decomp e
  rw [hdecomp] at hwf
  exact wfEsc_append_noquote (fun a ha => ws_ne_quote (hws a ha)) hwf

/-- Closing a whole quoted field `"E"` in `text` state: the full-quote test
succeeds. -/
theorem isFullQuote_quoted_full {E : List Char} (hwf : wfEsc E = true) :
    isFullQuote (trimEnd ('"' :: E ++ ['"'])) = true := by
  rw [show ('"' :: E ++ ['"']) = ('"' :: E) ++ ['"'] by simp,
    trimEnd_append_nonWS (by decide)]
  unfold isFullQuote
  by_cases hall : ∀ a ∈ E, a = '"'
  · have hq : trailingQuotes (('"' :: E) ++ ['"']) = (('"' :: E) ++ ['"']).length := by
      refine tq_all fun a ha => ?_
      rcases List.mem_append.mp ha with ha | ha
      · rcases List.mem_cons.mp ha with rfl | ha'
        · rfl
        · exact hall a ha'
      · simpa using ha
    rw [if_pos hq]
    rw [hq]
    have heven := wf_allQ_even hwf hall
    simp only [List.length_append, List.length_cons, List.length_nil]
    simp only [decide_eq_true_eq]
    omega
  · have hq : trailingQuotes (('"' :: E) ++ ['"']) = trailingQuotes E + 1 := by
      rw [show ('"' :: E) ++ ['"'] = '"' :: (E ++ ['"']) by simp, tq_cons]
      rw [if_neg ?side]
      · exact tq_append_quote E
      case side =>
        intro hcontra
        rw [List.all_eq_true] at hcontra
        refine hall fun a ha => by
          simpa using hcontra a (List.mem_append_left _ ha)
    have hodd : trailingQuotes (('"' :: E) ++ ['"']) % 2 = 1 := by
      rw [hq]
      have := wf_trailing_even hwf
      omega
    have hne : trailingQuotes (('"' :: E) ++ ['"']) ≠ (('"' :: E) ++ ['"']).length := by
      intro hcontra
      exact hall fun a ha => tq_eq_length_allQ hcontra a (by simp [ha])
    rw [if_neg hne]
    simp only [decide_eq_true_eq]
    omega

/-- Opening a quoted field whose content continues past the span: the
full-quote test fails on `"e₀`. -/
theorem isFullQuote_open_false {e₀ : List Char} (hwf : wfEsc e₀ = true) :
    isFullQuote (trimEnd ('"' :: e₀)) = false := by
  rw [trimEnd_cons_nonWS (by decide)]
  have hwf' : wfEsc (trimEnd e₀) = true := wf_trimEnd hwf
  unfold isFullQuote
  by_cases hall : ∀ a ∈ trimEnd e₀, a = '"'
  · have hq : trailingQuotes ('"' :: trimEnd e₀) = (trimEnd e₀).length + 1 := by
      refine Eq.trans (tq_all fun a ha => ?_) (by simp)
      rcases List.mem_cons.mp ha with rfl | ha'
      · rfl
      · exact hall a ha'
    rw [if_pos (by rw [hq]; simp)]
    have heven := wf_allQ_even hwf' hall
    rw [hq]
    simp only [decide_eq_false_iff_not, decide_eq_true_eq]
    omega
  · have hq : trailingQuotes ('"' :: trimEnd e₀) = trailingQuotes (trimEnd e₀) := by
      rw [tq_cons, if_neg ?side]
      case side =>
        intro hcontra
        rw [List.all_eq_true] at hcontra
        exact hall fun a ha => by simpa using hcontra a ha
    have heven := wf_trailing_even hwf'
    have hlt : trailingQuotes (trimEnd e₀) < ('"' :: trimEnd e₀).length := by
      have := tq_le (trimEnd e₀)
      simp only [List.length_cons]
      omega
    rw [if_neg (by rw [hq]; omega)]
    rw [hq]
    simp only [decide_eq_false_iff_not, decide_eq_true_eq]
    omega

/-- A middle span of an escaped field does not close it: only full quote
pairs can end the trimmed span. -/
theorem hasOdd_continue_false {e : List Char} (hwf : wfEsc e = true) :
    hasOddNumberEndQuotes (trimEnd e) = false := by
  unfold hasOddNumberEndQuotes
  have := wf_trailing_even (wf_trimEnd hwf)
  simp only [decide_eq_false_iff_not, decide_eq_true_eq]
  omega

/-- The final span `e"` of an escaped field closes it. -/
theorem hasOdd_close_true {e : List Char} (hwf : wfEsc e = true) :
    hasOddNumberEndQuotes (trimEnd (e ++ ['"'])) = true := by
  unfold hasOddNumberEndQuotes
  rw [trimEnd_append_nonWS (by decide), tq_append_quote]
  have := wf_trailing_even hwf
  simp only [decide_eq_true_eq]
  omega

/-! ## Per-span behavior of the parser on well-formed written fields -/

theorem contains_eq_false {l : List Char} {c : Char} (h : ∀ a ∈ l, a ≠ c) :
    l.contains c = false := by
  induction l with
  | nil => rfl
  | cons a t ih =>
    simp only [List.contains_cons]
    rw [ih fun x hx => h x (by simp [hx])]
    simp only [Bool.or_false]
    simpa using Ne.symm (h a (by simp))

theorem contains_eq_true {l : List Char} {c : Char} (h : c ∈ l) :
    l.contains c = true := by
  induction l with
  | nil => cases h
  | cons a t ih =>
    simp only [List.contains_cons]
    rcases List.mem_cons.mp h with rfl | h'
    · simp
    · rw [ih h']
      simp

/-- A span with no quote, arriving on a comma in `text` state: push the
trimmed field. -/
theorem step_bare_comma {w : List Char} {st : CsvParseState}
    (hst : st.readingState = .text) (hnq : ∀ a ∈ w, a ≠ '"')
    (th : Option (List Char → List Char)) :
    stepToken th st (w, .comma) =
      .ok { st with columns := st.columns ++ [trim w] } none := by
  unfold stepToken
  dsimp only
  rw [contains_eq_false hnq, hst]
  simp

/-- A span with no quote, arriving on a newline in `text` state, with a
column in progress or nonblank text: finalize the row. -/
theorem step_bare_newline {w : List Char} {st : CsvParseState}
    (hst : st.readingState = .text) (hnq : ∀ a ∈ w, a ≠ '"')
    (hnb : 0 < st.columns.length ∨ trim w ≠ [])
    (th : Option (List Char → List Char)) :
    stepToken th st (w, .newline) =
      .ok (finalizeRow th { st with columns := st.columns ++ [trim w] }).1
        (finalizeRow th { st with columns := st.columns ++ [trim w] }).2 := by
  unfold stepToken
  dsimp only
  rw [contains_eq_false hnq, hst]
  have hd : (decide (0 < st.columns.length) || decide (trim w ≠ [])) = true := by
    rcases hnb with hnb | hnb <;> simp [hnb]
  simp [hd]
  intro h1 h2
  rw [h1, h2] at hd
  simp at hd

/-- A fully quoted span `"E"` in `text` state on a comma: push the
unescaped content. -/
theorem step_quoted_comma {E : List Char} {st : CsvParseState}
    (hst : st.readingState = .text) (hwf : wfEsc E = true)
    (th : Option (List Char → List Char)) :
    stepToken th st ('"' :: E ++ ['"'], .comma) =
      .ok { st with columns := st.columns ++ [unescQ E] } none := by
  unfold stepToken
  dsimp only
  rw [hst]
  have hcont : ('"' :: E ++ ['"']).contains '"' = true := contains_eq_true (by simp)
  rw [hcont]
  have hts : trimStart ('"' :: E ++ ['"']) = '"' :: E ++ ['"'] :=
    trimStart_cons_nonWS (by decide) _
  have htr : trim ('"' :: E ++ ['"']) = '"' :: E ++ ['"'] := by
    unfold trim
    rw [hts, show ('"' :: E ++ ['"']) = ('"' :: E) ++ ['"'] by simp,
      trimEnd_append_nonWS (by decide)]
  simp only [hts, htr, isFullQuote_quoted_full hwf]
  have hv : ((('"' :: E ++ ['"']).drop 1).dropLast) = E := by
    rw [show ('"' :: E ++ ['"']).drop 1 = E ++ ['"'] by simp, List.dropLast_concat]
  simp [hv]

/-- A fully quoted span `"E"` in `text` state on a newline: push the
unescaped content and finalize the row. -/
theorem step_quoted_newline {E : List Char} {st : CsvParseState}
    (hst : st.readingState = .text) (hwf : wfEsc E = true)
    (th : Option (List Char → List Char)) :
    stepToken th st ('"' :: E ++ ['"'], .newline) =
      .ok (finalizeRow th { st with columns := st.columns ++ [unescQ E] }).1
        (finalizeRow th { st with columns := st.columns ++ [unescQ E] }).2 := by
  unfold stepToken
  dsimp only
  rw [hst]
  have hcont : ('"' :: E ++ ['"']).contains '"' = true := contains_eq_true (by simp)
  rw [hcont]
  have hts : trimStart ('"' :: E ++ ['"']) = '"' :: E ++ ['"'] :=
    trimStart_cons_nonWS (by decide) _
  have htr : trim ('"' :: E ++ ['"']) = '"' :: E ++ ['"'] := by
    unfold trim
    rw [hts, show ('"' :: E ++ ['"']) = ('"' :: E) ++ ['"'] by simp,
      trimEnd_append_nonWS (by decide)]
  simp only [hts, htr, isFullQuote_quoted_full hwf]
  have hv : ((('"' :: E ++ ['"']).drop 1).dropLast) = E := by
    rw [show ('"' :: E ++ ['"']).drop 1 = E ++ ['"'] by simp, List.dropLast_concat]
  simp [hv]

/-- An opening span `"e₀` (quote not yet closed) in `text` state: switch to
`escaped`, accumulating the content plus the consumed delimiter. -/
theorem step_quoted_open {e₀ : List Char} {st : CsvParseState} {d : Delim}
    (hst : st.readingState = .text) (hwf : wfEsc e₀ = true)
    (th : Option (List Char → List Char)) :
    stepToken th st ('"' :: e₀, d) =
      .ok { st with text := st.text ++ e₀ ++ [delimChar d],
                    readingState := .escaped } none := by
  have hcont : ('"' :: e₀).contains '"' = true := contains_eq_true (by simp)
  have hts : trimStart ('"' :: e₀) = '"' :: e₀ := trimStart_cons_nonWS (by decide) _
  cases d <;>
    (unfold stepToken
     dsimp only
     rw [hst, hcont]
     simp only [hts, isFullQuote_open_false hwf]
     simp [delimChar])

/-- A middle span of an escaped field: accumulate it plus the consumed
delimiter. -/
theorem step_escaped_continue {e : List Char} {st : CsvParseState} {d : Delim}
    (hst : st.readingState = .escaped) (hwf : wfEsc e = true)
    (th : Option (List Char → List Char)) :
    stepToken th st (e, d) =
      .ok { st with text := st.text ++ e ++ [delimChar d] } none := by
  cases d <;>
    (unfold stepToken
     dsimp only
     rw [hst]
     simp [hasOdd_continue_false hwf, delimChar])

/-- The closing span `e"` of an escaped field on a comma: push the unescaped
accumulated text and return to `text` state. -/
theorem step_escaped_close_comma {e : List Char} {st : CsvParseState}
    (hst : st.readingState = .escaped) (hwf : wfEsc e = true)
    (th : Option (List Char → List Char)) :
    stepToken th st (e ++ ['"'], .comma) =
      .ok { st with columns := st.columns ++ [unescQ (st.text ++ e)],
                    readingState := .text, text := [] } none := by
  unfold stepToken
  dsimp only
  rw [hst]
  simp only [hasOdd_close_true hwf]
  rw [trimEnd_append_nonWS (by decide), List.dropLast_concat]
  simp

/-- The closing span `e"` of an escaped field on a newline: push the
unescaped accumulated text, finalize the row, and return to `text` state. -/
theorem step_escaped_close_newline {e : List Char} {st : CsvParseState}
    (hst : st.readingState = .escaped) (hwf : wfEsc e = true)
    (th : Option (List Char → List Char)) :
    stepToken th st (e ++ ['"'], .newline) =
      .ok { (finalizeRow th { st with columns := st.columns ++ [unescQ (st.text ++ e)] }).1
              with readingState := .text, text := [] }
        (finalizeRow th { st with columns := st.columns ++ [unescQ (st.text ++ e)] }).2 := by
  unfold stepToken
  dsimp only
  rw [hst]
  simp only [hasOdd_close_true hwf]
  rw [trimEnd_append_nonWS (by decide), List.dropLast_concat]
  simp

/-! ## Lemmas about insertion-ordered maps -/

theorem mapGet_mapSet_self {α : Type} (m : List (List Char × α)) (k : List Char)
    (v : α) : mapGet (mapSet m k v) k = some v := by
  induction m with
  | nil => simp [mapSet, mapGet, List.find?]
  | cons p rest ih =>
    rcases p with ⟨k', v'⟩
    by_cases h : k' = k
    · simp [mapSet, h, mapGet, List.find?]
    · simp only [mapSet, if_neg h]
      simpa [mapGet, List.find?, h] using ih

theorem mapGet_eq_none_of_not_mem {α : Type} {m : List (List Char × α)}
    {k : List Char} (h : k ∉ m.map Prod.fst) : mapGet m k = none := by
  induction m with
  | nil => rfl
  | cons p rest ih =>
    rcases p with ⟨k', v'⟩
    simp only [List.map_cons, List.mem_cons] at h
    push_neg at h
    simpa [mapGet, List.find?, Ne.symm h.1] using ih h.2

theorem mapSet_mem_keys {α : Type} (m : List (List Char × α)) (k : List Char)
    (v : α) : k ∈ (mapSet m k v).map Prod.fst := by
  induction m with
  | nil => exact List.mem_singleton_self k
  | cons p rest ih =>
    rcases p with ⟨k', v'⟩
    by_cases h : k' = k
    · subst h
      simp only [mapSet, if_pos rfl, List.map_cons]
      exact List.mem_cons_self _ _
    · simp only [mapSet, if_neg h, List.map_cons, List.mem_cons]
      exact Or.inr ih

theorem mapSet_keys_of_mem {α : Type} {m : List (List Char × α)} {k : List Char}
    (v : α) (h : k ∈ m.map Prod.fst) :
    (mapSet m k v).map Prod.fst = m.map Prod.fst := by
  induction m with
  | nil => exact absurd h (List.not_mem_nil k)
  | cons p rest ih =>
    rcases p with ⟨k', v'⟩
    by_cases hk : k' = k
    · simp [mapSet, hk]
    · simp only [List.map_cons, List.mem_cons] at h
      rcases h with h | h


      · exact absurd h.symm hk
      · simp [mapSet, if_neg hk, ih h]

theorem mapSet_keys_of_not_mem {α : Type} {m : List (List Char × α)}
    {k : List Char} (v : α) (h : k ∉ m.map Prod.fst) :
    (mapSet m k v).map Prod.fst = m.map Prod.fst ++ [k] := by
  induction m with
  | nil => simp [mapSet]
  | cons p rest ih =>
    rcases p with ⟨k', v'⟩
    simp only [List.map_cons, List.mem_cons] at h
    push_neg at h
    simp [mapSet, if_neg (Ne.symm h.1), ih h.2]

theorem mapSet_length_of_mem {α : Type} {m : List (List Char × α)}
    {k : List Char} (v : α) (h : k ∈ m.map Prod.fst) :
    (mapSet m k v).length = m.length := by
  induction m with
  | nil => exact absurd h (List.not_mem_nil k)
  | cons p rest ih =>
    rcases p with ⟨k', v'⟩
    by_cases hk : k' = k
    · simp [mapSet, hk]
    · simp only [List.map_cons, List.mem_cons] at h
      rcases h with h | h
      · exact absurd h.symm hk
      · simp [mapSet, if_neg hk, ih h]

theorem mapSet_keys_nodup {α : Type} {m : List (List Char × α)} {k : List Char}
    (v : α) (h : (m.map Prod.fst).Nodup) :
    ((mapSet m k v).map Prod.fst).Nodup := by
  by_cases hk : k ∈ m.map Prod.fst
  · rw [mapSet_keys_of_mem v hk]
    exact h
  · rw [mapSet_keys_of_not_mem v hk]
    refine List.Nodup.append h (List.nodup_singleton k) ?_
    exact fun a ha hb => hk ((List.mem_singleton.mp hb) ▸ ha)

theorem filter_key_nil_of_not_mem {α : Type} {m : List (List Char × α)}
    {k : List Char} (h : k ∉ m.map Prod.fst) :
    m.filter (fun p => p.1 = k) = [] := by
  induction m with
  | nil => rfl
  | cons p rest ih =>
    rcases p with ⟨k', v'⟩
    simp only [List.map_cons, List.mem_cons] at h
    push_neg at h
    simp [List.filter_cons, Ne.symm h.1, ih h.2]

theorem mapSet_filter_eq {α : Type} {m : List (List Char × α)} {k : List Char}
    (v : α) (h : (m.map Prod.fst).Nodup) :
    (mapSet m k v).filter (fun p => p.1 = k) = [(k, v)] := by
  induction m with
  | nil => simp [mapSet, List.filter_cons]
  | cons p rest ih =>
    rcases p with ⟨k', v'⟩
    simp only [List.map_cons, List.nodup_cons] at h
    by_cases hk : k' = k
    · subst hk
      simp only [mapSet, if_pos rfl]
      simp [List.filter_cons, filter_key_nil_of_not_mem h.1]
    · simp only [mapSet, if_neg hk]
      simp [List.filter_cons, hk, ih h.2]

theorem mapGet_mapDelete_self {α : Type} {m : List (List Char × α)}
    {k : List Char} (h : (m.map Prod.fst).Nodup) :
    mapGet (mapDelete m k) k = none := by
  induction m with
  | nil => rfl
  | cons p rest ih =>
    rcases p with ⟨k', v'⟩
    simp only [List.map_cons, List.nodup_cons] at h
    by_cases hk : k' = k
    · subst hk
      simp only [mapDelete, if_pos rfl]
      exact mapGet_eq_none_of_not_mem h.1
    · simpa [mapDelete, if_neg hk, mapGet, List.find?, hk] using ih h.2

/-! ## Claim C6 -/

/-- **C6.** On a single-key table, inserting a second entity whose
primary-key field values coincide with an already-stored entity's silently
overwrites it: the key now maps to the second entity, the table size is
unchanged from before the second insert, and exactly one entry is stored
under that key.  (`addParsedEntity` is total — the engine has no
duplicate-key error at all.) -/
theorem duplicate_key_insert_overwrites (cfg : OneIndexCfg) (tbl : OneIndexMap)
    (e₁ e₂ : Entity) (hpk : cfg.primaryKey ≠ [])
    (hvals : ∀ k ∈ cfg.primaryKey, entityGet e₂ k = entityGet e₁ k)
    (hnd : (tbl.map Prod.fst).Nodup) :
    getWithId (addParsedEntity cfg (addParsedEntity cfg tbl e₁) e₂)
        (getKey cfg e₂) = some e₂ ∧
    (addParsedEntity cfg (addParsedEntity cfg tbl e₁) e₂).length =
      (addParsedEntity cfg tbl e₁).length ∧
    (addParsedEntity cfg (addParsedEntity cfg tbl e₁) e₂).filter
        (fun p => p.1 = getKey cfg e₂) = [(getKey cfg e₂, e₂)] := by
  have hkey : getKey cfg e₂ = getKey cfg e₁ := by
    unfold getKey
    rw [if_neg hpk, if_neg hpk]
    exact congrArg _ (List.map_congr_left fun k hk => by rw [hvals k hk])
  refine ⟨mapGet_mapSet_self _ _ _, ?_, ?_⟩
  · unfold addParsedEntity
    exact mapSet_length_of_mem _ (hkey ▸ mapSet_mem_keys tbl (getKey cfg e₁) e₁)
  · unfold addParsedEntity
    exact mapSet_filter_eq _ (mapSet_keys_nodup _ hnd)

/-- Witness for C6: two entities with the same `id` into the demo table. -/
theorem duplicate_key_insert_overwrites_witness :
    (demoCfg.primaryKey ≠ [] ∧
      (([] : OneIndexMap).map Prod.fst).Nodup) ∧
    getWithId
        (addParsedEntity demoCfg
          (addParsedEntity demoCfg []
            [(['i', 'd'], .str ['1']), (['v'], .str ['a'])])
          [(['i', 'd'], .str ['1']), (['v'], .str ['b'])])
        (getKey demoCfg [(['i', 'd'], .str ['1']), (['v'], .str ['b'])]) =
      some [(['i', 'd'], .str ['1']), (['v'], .str ['b'])] :=
  ⟨⟨by decide, by decide⟩,
   (duplicate_key_insert_overwrites demoCfg []
      [(['i', 'd'], .str ['1']), (['v'], .str ['a'])]
      [(['i', 'd'], .str ['1']), (['v'], .str ['b'])]
      (by decide) (by decide) (by decide)).1⟩

/-! ## Claim C7 -/

/-- **C7.** On a two-level (grouped-key) table, deleting the last remaining
member of a group removes the group entirely: a subsequent group lookup by
that primary key returns the empty collection. -/
theorem delete_last_member_removes_group (cfg : TwoIndexCfg) (tbl : TwoIndexMap)
    (e e' : Entity) (hnd : (tbl.map Prod.fst).Nodup)
    (hgroup : mapGet tbl (getPrimaryKey2 cfg e) =
      some [(getSecondaryKey2 cfg e, e')]) :
    getWithFirstId (deleteEntity2 cfg tbl e) (getPrimaryKey2 cfg e) = [] := by
  simp only [deleteEntity2]
  rw [hgroup]
  dsimp only
  have hdel : mapDelete [(getSecondaryKey2 cfg e, e')] (getSecondaryKey2 cfg e) = [] := by
    simp [mapDelete]
  rw [hdel, mapGet_mapSet_self]
  dsimp only
  simp only [List.length_nil, if_true]
  unfold getWithFirstId
  rw [mapGet_mapDelete_self (mapSet_keys_nodup _ hnd)]

/-- Witness for C7: a singleton group in a concrete two-level table. -/
theorem delete_last_member_removes_group_witness :
    ((demoTbl2.map Prod.fst).Nodup ∧
      mapGet demoTbl2 (getPrimaryKey2 demoCfg2 demoEnt2) =
        some [(getSecondaryKey2 demoCfg2 demoEnt2, demoEnt2)]) ∧
    getWithFirstId (deleteEntity2 demoCfg2 demoTbl2 demoEnt2)
        (getPrimaryKey2 demoCfg2 demoEnt2) = [] :=
  ⟨⟨by decide, by decide⟩,
   delete_last_member_removes_group demoCfg2 demoTbl2 demoEnt2 demoEnt2
     (by decide) (by decide)⟩

/-! ## Claim C9 -/

/-- **C9.** For a path that does not exist on the filesystem,
`importFromPath` on an empty table is a no-op: it raises no error and leaves
the table empty.  (The `validateLinkedFields` pass it still runs outside
transcode mode trivially succeeds on the empty table.) -/
theorem missing_file_import_noop (cfg : OneIndexCfg) (reg : Registry) :
    importFromPath cfg reg [] none = .ok [] := by
  unfold importFromPath importFromCsvT
  rcases reg with ⟨t, a, tabs⟩
  cases t <;> rfl

/-! ## Claim C10 -/

/-- **C10.** A field whose parsed value is the empty string is delivered as
absent, exactly like a missing trailing column: the callback never observes
an empty-string value, and at any position an explicitly empty field is
indistinguishable from truncating the row before that position. -/
theorem empty_field_is_absent :
    (∀ (h : List (List Char)) (r : List (List Char))
        (p : List Char × Option (List Char)), p ∈ zipRow h r → p.2 ≠ some []) ∧
    (∀ (h : List (List Char)) (r : List (List Char)) (i : Nat),
        i < h.length → r.get? i = some [] →
        (zipRow h r).get? i = (zipRow h (r.take i)).get? i) := by
  constructor
  · intro h r p hp
    simp only [zipRow, List.mem_map] at hp
    obtain ⟨⟨i, f⟩, _, rfl⟩ := hp
    rcases hr : r.get? i with _ | v
    · simp
    · by_cases hv : v = [] <;> simp [hv]
  · intro h r i hi hr
    simp only [zipRow]
    have htake : (r.take i).get? i = none :=
      List.get?_eq_none.mpr (by simp)
    rw [List.get?_map, List.get?_map, List.get?_enum]
    rcases hh : h.get? i with _ | f
    · rfl
    · simp only [Option.map_some']
      rw [hr, htake]
      simp

/-- Witness for C10: row `x,,y` against a three-column header — position 1 is
delivered exactly as if the row had been truncated after `x`. -/
theorem empty_field_is_absent_witness :
    (1 < ([['a'], ['b'], ['c']] : List (List Char)).length ∧
      ([['x'], [], ['y']] : List (List Char)).get? 1 = some []) ∧
    (zipRow [['a'], ['b'], ['c']] [['x'], [], ['y']]).get? 1 =
      (zipRow [['a'], ['b'], ['c']] (([['x'], [], ['y']] : List (List Char)).take 1)).get? 1 :=
  ⟨⟨by decide, by decide⟩,
   empty_field_is_absent.2 [['a'], ['b'], ['c']] [['x'], [], ['y']] 1
     (by decide) (by decide)⟩

/-! ## Lemmas about the foreign-key loop -/

theorem checkForeignKey_of_fkOkB {reg : Registry} {e : Entity}
    {p : List Char × List Char} (h : fkOkB reg e p = true) :
    checkForeignKey reg p.2 (entityGet e p.1) = .ok true := by
  unfold fkOkB at h
  rcases hv : entityGet e p.1 with s | n | a | _ <;> rw [hv] at h <;> dsimp only at h
  · rcases ht : regTable? reg p.2 with _ | m <;> rw [ht] at h <;> dsimp only at h
    · cases h
    · simp only [checkForeignKey, ht, h]
  · cases h
  · cases h
  · rfl

theorem checkEntityFKs_ok {reg : Registry} {tname : List Char} {e : Entity}
    {fks : List (List Char × List Char)}
    (h : fks.all (fkOkB reg e) = true) :
    checkEntityFKs reg tname e fks = .ok () := by
  induction fks with
  | nil => rfl
  | cons p rest ih =>
    rw [List.all_cons, Bool.and_eq_true] at h
    unfold checkEntityFKs
    rw [checkForeignKey_of_fkOkB h.1]
    exact ih h.2

theorem checkEntityFKs_err {reg : Registry} {tname : List Char} {e : Entity}
    {fks : List (List Char × List Char)}
    (hb : fks.all (fkBenignOneB reg e) = true)
    {f tn : List Char} {s : List Char} {m : OneIndexMap}
    (hmem : (f, tn) ∈ fks) (hv : entityGet e f = .str s)
    (ht : regTable? reg tn = some m) (hm : mapGet m s = none) :
    ∃ f' v', checkEntityFKs reg tname e fks = .error (.foreignKey tname f' v') := by
  induction fks with
  | nil => cases hmem
  | cons p rest ih =>
    obtain ⟨pf, pt⟩ := p
    rw [List.all_cons, Bool.and_eq_true] at hb
    have hbo := hb.1
    unfold fkBenignOneB at hbo
    unfold checkEntityFKs
    rcases hval : entityGet e pf with s' | n | a | _ <;> rw [hval] at hbo <;>
      dsimp only at hbo ⊢
    · rcases htab : regTable? reg pt with _ | m' <;> rw [htab] at hbo
      · cases hbo
      · simp only [checkForeignKey, htab]
        rcases hgv : mapGet m' s' with _ | v
        · exact ⟨pf, s', rfl⟩
        · rcases List.mem_cons.mp hmem with hp | hp
          · exfalso
            injection hp with h1 h2
            subst h1
            subst h2
            rw [hval] at hv
            cases hv
            rw [htab] at ht
            cases ht
            rw [hgv] at hm
            cases hm
          · exact ih hb.2 hp
    · cases hbo
    · cases hbo
    · rcases List.mem_cons.mp hmem with hp | hp
      · exfalso
        injection hp with h1 h2
        subst h1
        rw [hval] at hv
        cases hv
      · exact ih hb.2 hp

theorem checkEntityFKs_benign_cases {reg : Registry} {tname : List Char}
    {e : Entity} {fks : List (List Char × List Char)}
    (hb : fks.all (fkBenignOneB reg e) = true) :
    checkEntityFKs reg tname e fks = .ok () ∨
      ∃ f v, checkEntityFKs reg tname e fks = .error (.foreignKey tname f v) := by
  induction fks with
  | nil => exact Or.inl rfl
  | cons p rest ih =>
    obtain ⟨pf, pt⟩ := p
    rw [List.all_cons, Bool.and_eq_true] at hb
    have hbo := hb.1
    unfold fkBenignOneB at hbo
    unfold checkEntityFKs
    rcases hval : entityGet e pf with s' | n | a | _ <;> rw [hval] at hbo <;>
      dsimp only at hbo ⊢
    · rcases htab : regTable? reg pt with _ | m' <;> rw [htab] at hbo
      · cases hbo
      · simp only [checkForeignKey, htab]
        rcases hgv : mapGet m' s' with _ | v
        · exact Or.inr ⟨pf, s', rfl⟩
        · exact ih hb.2
    · cases hbo
    · cases hbo
    · exact ih hb.2

/-! ## Claim C5 -/

/-- **C5 (amended).** For every foreign key the table actually checks (a
declared key that is not inter-feed-exempted by the Registry): an absent
(`undefined`) value always passes `checkForeignKey` without raising; with
reference checking enabled, a present string value with no matching primary
key in the referenced table resolved through the Registry makes `addEntity`
raise a referential-integrity error, and values that all resolve let the
insert proceed; the `validateLinkedFields` full-table pass behaves the same
way on every stored entity.  (The benignity hypotheses say the other checked
values are absent or strings whose referenced table resolves, so the check
itself never throws a different error first.) -/
theorem fk_check_behavior :
    (∀ (reg : Registry) (tn : List Char),
        checkForeignKey reg tn .undef = .ok true) ∧
    (∀ (cfg : OneIndexCfg) (reg : Registry) (tbl : OneIndexMap) (raw : Row)
        (e : Entity) (f tn s : List Char) (m : OneIndexMap),
        cfg.validate raw = .ok e →
        (effectiveFKs cfg reg).all (fkBenignOneB reg e) = true →
        (f, tn) ∈ effectiveFKs cfg reg →
        entityGet e f = .str s →
        regTable? reg tn = some m →
        mapGet m s = none →
        ∃ f' v', addEntity cfg reg tbl raw true =
          .error (.foreignKey cfg.tableName f' v')) ∧
    (∀ (cfg : OneIndexCfg) (reg : Registry) (tbl : OneIndexMap) (raw : Row)
        (e : Entity),
        cfg.validate raw = .ok e →
        (effectiveFKs cfg reg).all (fkOkB reg e) = true →
        addEntity cfg reg tbl raw true = .ok (addParsedEntity cfg tbl e)) ∧
    (∀ (cfg : OneIndexCfg) (reg : Registry) (tbl : OneIndexMap),
        (tbl.all fun q => (effectiveFKs cfg reg).all (fkOkB reg q.2)) = true →
        validateLinkedFields cfg reg tbl = .ok ()) ∧
    (∀ (cfg : OneIndexCfg) (reg : Registry) (tbl : OneIndexMap)
        (k : List Char) (e : Entity) (f tn s : List Char) (m : OneIndexMap),
        (tbl.all fun q => (effectiveFKs cfg reg).all (fkBenignOneB reg q.2)) = true →
        (k, e) ∈ tbl →
        (f, tn) ∈ effectiveFKs cfg reg →
        entityGet e f = .str s →
        regTable? reg tn = some m →
        mapGet m s = none →
        ∃ f' v', validateLinkedFields cfg reg tbl =
          .error (.foreignKey cfg.tableName f' v')) := by
  refine ⟨fun reg tn => rfl, ?_, ?_, ?_, ?_⟩
  · intro cfg reg tbl raw e f tn s m hval hb hmem hv ht hm
    obtain ⟨f', v', herr⟩ := @checkEntityFKs_err reg cfg.tableName e
      (effectiveFKs cfg reg) hb f tn s m hmem hv ht hm
    refine ⟨f', v', ?_⟩
    unfold addEntity
    rw [hval]
    dsimp only
    rw [herr]
    rfl
  · intro cfg reg tbl raw e hval hok
    unfold addEntity
    rw [hval]
    dsimp only
    rw [checkEntityFKs_ok hok]
    rfl
  · intro cfg reg tbl hall
    induction tbl with
    | nil => rfl
    | cons q rest ih =>
      rw [List.all_cons, Bool.and_eq_true] at hall
      unfold validateLinkedFields
      rw [checkEntityFKs_ok hall.1]
      exact ih hall.2
  · intro cfg reg tbl k e f tn s m hall hmem hfk hv ht hm
    induction tbl with
    | nil => cases hmem
    | cons q rest ih =>
      rw [List.all_cons, Bool.and_eq_true] at hall
      rcases List.mem_cons.mp hmem with hq | hq
      · subst hq
        obtain ⟨f', v', herr⟩ := @checkEntityFKs_err reg cfg.tableName e
          (effectiveFKs cfg reg) hall.1 f tn s m hfk hv ht hm
        unfold validateLinkedFields
        rw [herr]
        exact ⟨f', v', rfl⟩
      · rcases q with ⟨k₀, e₀⟩
        rcases @checkEntityFKs_benign_cases reg cfg.tableName e₀
          (effectiveFKs cfg reg) hall.1 with hok | ⟨f', v', herr⟩
        · unfold validateLinkedFields
          rw [hok]
          exact ih hall.2 hq
        · unfold validateLinkedFields
          rw [herr]
          exact ⟨f', v', rfl⟩

/-! ## Lemmas about the import pipeline -/

theorem addEntity_false_ok {cfg : OneIndexCfg} {reg : Registry}
    {tbl : OneIndexMap} {r : Row} {t' : OneIndexMap}
    (h : addEntity cfg reg tbl r false = .ok t') :
    ∃ e, cfg.validate r = .ok e ∧ t' = addParsedEntity cfg tbl e := by
  unfold addEntity at h
  rcases hv : cfg.validate r with msg | e <;> rw [hv] at h
  · cases h
  · refine ⟨e, rfl, ?_⟩
    simp only [] at h
    cases h
    rfl

theorem addEntity_false_err {cfg : OneIndexCfg} {reg : Registry}
    {tbl : OneIndexMap} {r : Row} {err : TableError}
    (h : addEntity cfg reg tbl r false = .error err) :
    ∃ msg, err = .parsing cfg.tableName msg := by
  unfold addEntity at h
  rcases hv : cfg.validate r with msg | e <;> rw [hv] at h
  · simp only [] at h
    cases h
    exact ⟨msg, rfl⟩
  · simp only [] at h
    cases h

theorem importRows_ok {cfg : OneIndexCfg} {reg : Registry}
    {tbl : OneIndexMap} {rows : List Row} {t' : OneIndexMap}
    (h : importRows cfg reg tbl rows = .ok t') :
    ∀ r ∈ rows, ∃ e, cfg.validate r = .ok e := by
  induction rows generalizing tbl with
  | nil => intro r hr; cases hr
  | cons r₀ rest ih =>
    intro r hr
    unfold importRows at h
    rcases ha : addEntity cfg reg tbl r₀ false with e₁ | t₁ <;> rw [ha] at h
    · cases h
    · rcases List.mem_cons.mp hr with hr₀ | hr₀
      · subst hr₀
        obtain ⟨e, he, _⟩ := addEntity_false_ok ha
        exact ⟨e, he⟩
      · exact ih h r hr₀

theorem importRows_err {cfg : OneIndexCfg} {reg : Registry}
    {tbl : OneIndexMap} {rows : List Row} {err : TableError}
    (h : importRows cfg reg tbl rows = .error err) :
    ∃ msg, err = .parsing cfg.tableName msg := by
  induction rows generalizing tbl with
  | nil => cases h
  | cons r₀ rest ih =>
    unfold importRows at h
    rcases ha : addEntity cfg reg tbl r₀ false with e₁ | t₁ <;> rw [ha] at h
    · cases h
      exact addEntity_false_err ha
    · exact ih h

theorem runTokens_raised {cb : Row → CbSignal} {th : Option (List Char → List Char)}
    {st : CsvParseState} {ts : List Tok} {e : TableError} {rows : List Row}
    (h : runTokens cb th st ts = (.raised e, rows)) :
    ∃ r, cb r = .raise e := by
  induction ts generalizing st rows with
  | nil => cases h
  | cons t rest ih =>
    unfold runTokens at h
    cases hst : stepToken th st t with
    | fail =>
      rw [hst] at h
      cases h
    | ok st' r =>
      rw [hst] at h
      rcases r with _ | r
      · exact ih h
      · dsimp only at h
        rcases hcb : cb r with _ | _ | e' <;> rw [hcb] at h
        · rcases hrun : runTokens cb th st' rest with ⟨o, rs⟩
          rw [hrun] at h
          dsimp only at h
          injection h with h1 h2
          rw [h1] at hrun
          exact ih hrun
        · cases h
        · injection h with h1 h2
          injection h1 with h1
          subst h1
          exact ⟨r, hcb⟩

theorem parseChunk_raised {csv : List Char} {cb : Row → CbSignal}
    {st : CsvParseState} {th : Option (List Char → List Char)}
    {e : TableError} {rows : List Row}
    (h : parseChunk csv cb st th = (.raised e, rows)) :
    ∃ r, cb r = .raise e := by
  unfold parseChunk at h
  rcases hrun : runTokens cb th st (tokenize csv).1 with ⟨o, rs⟩
  rw [hrun] at h
  rcases o with _ | _ | _ | e' <;> cases h
  exact runTokens_raised hrun

theorem parseSeq_raised {cb : Row → CbSignal} {th : Option (List Char → List Char)}
    {st : CsvParseState} {rem : List Char} {chunks : List (List Char)}
    {e : TableError} {rows : List Row}
    (h : parseSeq cb th st rem chunks = (.raised e, rows)) :
    ∃ r, cb r = .raise e := by
  induction chunks generalizing st rem rows with
  | nil => cases h
  | cons c cs ih =>
    unfold parseSeq at h
    rcases hp : parseChunk (rem ++ c) cb st th with ⟨o, rws⟩
    rw [hp] at h
    rcases o with ⟨st₁, rem₁⟩ | _ | _ | e' <;> simp only [] at h
    · rcases hs : parseSeq cb th st₁ rem₁ cs with ⟨o₂, rs₂⟩
      rw [hs] at h
      dsimp only at h
      injection h with h1 h2
      rw [h1] at hs
      exact ih hs
    · cases h
    · cases h
    · cases h
      exact parseChunk_raised hp

theorem runCsvStream_raised {cb : Row → CbSignal}
    {th : Option (List Char → List Char)} {chunks : List (List Char)}
    {e : TableError} {rows : List Row}
    (h : runCsvStream cb th chunks = (.raised e, rows)) :
    ∃ r, cb r = .raise e := by
  unfold runCsvStream at h
  rcases hs : parseSeq cb th initState [] chunks with ⟨o, rs⟩
  rw [hs] at h
  rcases o with ⟨st₁, rem₁⟩ | _ | _ | e' <;> simp only [] at h
  · rcases hp : parseChunk (rem₁ ++ ['\n']) cb st₁ th with ⟨o₂, rs₂⟩
    rw [hp] at h
    rcases o₂ with ⟨st₂, rem₂⟩ | _ | _ | e'' <;> cases h
    exact parseChunk_raised hp
  · cases h
  · cases h
  · cases h
    exact parseSeq_raised hs

theorem importCb_raise {cfg : OneIndexCfg} {r : Row} {e : TableError}
    (h : importCb cfg r = .raise e) :
    ∃ msg, e = .parsing cfg.tableName msg := by
  unfold importCb at h
  rcases hv : cfg.validate r with msg | e' <;> rw [hv] at h
  · cases h
    exact ⟨msg, rfl⟩
  · cases h

theorem importFromCsvT_err {cfg : OneIndexCfg} {reg : Registry}
    {tbl : OneIndexMap} {file : Option (List (List Char))} {err : TableError}
    (h : importFromCsvT cfg reg tbl file = .error err) :
    err = .parseSyntax ∨ ∃ msg, err = .parsing cfg.tableName msg := by
  unfold importFromCsvT at h
  rcases file with _ | chunks
  · cases h
  · dsimp only at h
    rcases hrun : runCsvStream (importCb cfg) cfg.transformHeader chunks
      with ⟨o, rows⟩
    rw [hrun] at h
    dsimp only at h
    rcases hi : importRows cfg reg tbl rows with e₁ | t₁ <;> rw [hi] at h
    · cases h
      exact Or.inr (importRows_err hi)
    · rcases o with ⟨st₁, rem₁⟩ | _ | _ | e₂ <;> simp only [] at h
      · cases h
      · cases h
      · cases h
        exact Or.inl rfl
      · cases h
        obtain ⟨r, hr⟩ := runCsvStream_raised hrun
        exact Or.inr (importCb_raise hr)

/-! ## Claim C2 -/

/-- **C2 (amended).** When the Registry's transcode flag is true,
`importFromPath` performs no foreign-key checking of any kind — neither
per-row (`addEntity` is invoked with `checkReferences = false`) nor in a
post-import pass (`validateLinkedFields` is skipped) — so it can never raise
a referential-integrity (or any other foreign-key related) error; but
per-row schema validation still runs: an import that returns successfully
validated every delivered row. -/
theorem transcode_skips_only_fk_checks (cfg : OneIndexCfg) (reg : Registry)
    (tbl : OneIndexMap) (file : Option (List (List Char)))
    (htr : reg.transcodeMode = true) :
    (∀ tn f v, importFromPath cfg reg tbl file ≠ .error (.foreignKey tn f v)) ∧
    (∀ tn, importFromPath cfg reg tbl file ≠ .error (.fkMissingTable tn)) ∧
    importFromPath cfg reg tbl file ≠ .error .fkNotString ∧
    (∀ chunks t', file = some chunks →
      importFromPath cfg reg tbl file = .ok t' →
      ∀ r ∈ (runCsvStream (importCb cfg) cfg.transformHeader chunks).2,
        ∃ e, cfg.validate r = .ok e) := by
  have himp : ∀ err, importFromPath cfg reg tbl file = .error err →
      err = .parseSyntax ∨ ∃ msg, err = .parsing cfg.tableName msg := by
    intro err h
    unfold importFromPath at h
    rcases hc : importFromCsvT cfg reg tbl file with e₁ | t₁ <;> rw [hc] at h
    · cases h
      exact importFromCsvT_err hc
    · rw [htr] at h
      simp only [if_pos rfl] at h
      cases h
  refine ⟨?_, ?_, ?_, ?_⟩
  · intro tn f v hcontra
    rcases himp _ hcontra with he | ⟨msg, he⟩ <;> cases he
  · intro tn hcontra
    rcases himp _ hcontra with he | ⟨msg, he⟩ <;> cases he
  · intro hcontra
    rcases himp _ hcontra with he | ⟨msg, he⟩ <;> cases he
  · intro chunks t' hfile hok r hr
    subst hfile
    unfold importFromPath at hok
    rcases hc : importFromCsvT cfg reg tbl (some chunks) with e₁ | t₁ <;>
      rw [hc] at hok
    · cases hok
    · unfold importFromCsvT at hc
      dsimp only at hc
      rcases hrun : runCsvStream (importCb cfg) cfg.transformHeader chunks
        with ⟨o, rows⟩
      rw [hrun] at hc
      simp only [] at hc
      rcases hi : importRows cfg reg tbl rows with e₂ | t₂ <;> rw [hi] at hc
      · cases hc
      · rw [hrun] at hr
        exact importRows_ok hi r hr

/-- Counterexample for C2 as stated: in transcode mode a row failing schema
validation (`id` empty, hence absent) still aborts the import with a
validation error — rows are not stored unchecked. -/
theorem transcode_still_validates_rows :
    demoRegT.transcodeMode = true ∧
    importFromPath demoCfg demoRegT [] (some ["id,v\n,b\n".data]) =
      .error (.parsing ['t'] ['i', 'd', '?']) := by
  decide

/-- Witness for C2 (amended): in transcode mode the demo import cannot
surface a referential-integrity error. -/
theorem transcode_skips_only_fk_checks_witness :
    demoRegT.transcodeMode = true ∧
    importFromPath demoCfg demoRegT [] (some ["id,v\n1,b\n".data]) ≠
      .error (.foreignKey ['r'] ['f'] ['x']) :=
  ⟨by decide,
   (transcode_skips_only_fk_checks demoCfg demoRegT []
      (some ["id,v\n1,b\n".data]) (by decide)).1 ['r'] ['f'] ['x']⟩

/-- Counterexample for C5 as stated: a declared foreign-key field that is
marked inter-feed, under a Registry allowing inter-feed keys, is not checked
at all — inserting a present value with no match in the referenced (empty)
table `r` succeeds instead of raising. -/
theorem interfeed_fk_skips_check :
    addEntity demoCfgFkInterfeed demoRegFkAllow [] [(['f'], some ['x'])] true =
      .ok [(['x'], [(['f'], .str ['x'])])] := by
  decide

/-- Witness for C5 (amended), part: insert-time referential failure on the
demo schema whose referenced table `r` is empty. -/
theorem fk_check_behavior_witness :
    (demoCfgFk.validate [(['f'], some ['x'])] = .ok [(['f'], .str ['x'])] ∧
      (effectiveFKs demoCfgFk demoRegFk).all
        (fkBenignOneB demoRegFk [(['f'], .str ['x'])]) = true ∧
      (['f'], ['r']) ∈ effectiveFKs demoCfgFk demoRegFk ∧
      entityGet [(['f'], .str ['x'])] ['f'] = .str ['x'] ∧
      regTable? demoRegFk ['r'] = some [] ∧
      mapGet ([] : OneIndexMap) ['x'] = none) ∧
    ∃ f' v', addEntity demoCfgFk demoRegFk [] [(['f'], some ['x'])] true =
      .error (.foreignKey demoCfgFk.tableName f' v') :=
  ⟨⟨by decide, by decide, by decide, by decide, by decide, by decide⟩,
   fk_check_behavior.2.1 demoCfgFk demoRegFk [] [(['f'], some ['x'])]
     [(['f'], .str ['x'])] ['f'] ['r'] ['x'] []
     (by decide) (by decide) (by decide) (by decide) (by decide) (by decide)⟩

/-! ## The export/reimport round trip: supporting lemmas -/

theorem mem_ne_of_contains_eq_false {l : List Char} {c : Char}
    (h : l.contains c = false) : ∀ a ∈ l, a ≠ c := by
  induction l with
  | nil => intro a ha; cases ha
  | cons b t ih =>
    rw [List.contains_cons, Bool.or_eq_false_iff] at h
    intro a ha
    rcases List.mem_cons.mp ha with rfl | ha'
    · intro hcontra
      subst hcontra
      simp at h
    · exact ih h.2 a ha'

theorem charDelim?_none_of_ne {c : Char} (h1 : c ≠ ',') (h2 : c ≠ '\n') :
    charDelim? c = none := by
  unfold charDelim?
  rw [if_neg h1, if_neg h2]

theorem noDelim_of_no_special {s : List Char} (h1 : s.contains ',' = false)
    (h2 : s.contains '\n' = false) : noDelim s = true := by
  refine List.all_eq_true.mpr fun a ha => ?_
  rw [charDelim?_none_of_ne (mem_ne_of_contains_eq_false h1 a ha)
    (mem_ne_of_contains_eq_false h2 a ha)]
  rfl

theorem exists_first_delim : ∀ {l : List Char}, noDelim l = false →
    ∃ a d b, l = a ++ delimChar d :: b ∧ noDelim a = true
  | [], h => by cases h
  | c :: l, h => by
    rw [noDelim_cons, Bool.and_eq_false_iff] at h
    rcases hc : charDelim? c with _ | d
    · have hl : noDelim l = false := by
        rcases h with h | h
        · rw [hc] at h
          cases h
        · exact h
      obtain ⟨a, d, b, hdec, hnda⟩ := exists_first_delim hl
      refine ⟨c :: a, d, b, by rw [hdec]; rfl, ?_⟩
      rw [noDelim_cons, hc, hnda]
      rfl
    · exact ⟨[], d, l, by rw [charDelim?_eq_some hc]; rfl, rfl⟩

theorem finalizeRow_fst_reset (th : Option (List Char → List Char))
    (rs : RState) (hdr cols : List (List Char)) (txt : List Char) :
    { (finalizeRow th ⟨rs, hdr, cols, txt⟩).1 with
        readingState := RState.text, text := ([] : List Char) } =
      (finalizeRow th ⟨.text, hdr, cols, []⟩).1 := by
  by_cases h : hdr = [] <;> simp [finalizeRow, h]

theorem finalizeRow_snd_eq (th : Option (List Char → List Char))
    (rs : RState) (hdr cols : List (List Char)) (txt : List Char) :
    (finalizeRow th ⟨rs, hdr, cols, txt⟩).2 =
      (finalizeRow th ⟨.text, hdr, cols, []⟩).2 := by
  by_cases h : hdr = [] <;> simp [finalizeRow, h]

/-- Running the loop from a span whose step finalizes the row with the
columns `cols` (the span's own value already pushed) is the emit tail. -/
theorem runTokens_finalize_step (cb : Row → CbSignal)
    (th : Option (List Char → List Char)) {st : CsvParseState} {t : Tok}
    (hdr cols : List (List Char)) (toks : List Tok)
    (hstep : stepToken th st t =
      .ok (finalizeRow th ⟨.text, hdr, cols, []⟩).1
        (finalizeRow th ⟨.text, hdr, cols, []⟩).2) :
    runTokens cb th st (t :: toks) = emitRow cb th hdr cols toks := by
  simp only [runTokens]
  rw [hstep]
  unfold emitRow
  rcases hfin : finalizeRow th ⟨.text, hdr, cols, []⟩ with ⟨stF, rF⟩
  dsimp only
  cases rF with
  | none => rfl
  | some r => cases cb r <;> rfl

/-- The closing stretch of an escaped field: a delimiter-free well-formed
tail `Q` followed by the closing quote and the field's own delimiter. -/
theorem runTokens_escaped_end (cb : Row → CbSignal)
    (th : Option (List Char → List Char)) (hdr cols : List (List Char))
    (T : List Char) {Q : List Char} (hnd : noDelim Q = true)
    (hwf : wfEsc Q = true) (d : Delim) (R : List Char) :
    runTokens cb th ⟨.escaped, hdr, cols, T⟩
        (tokenize (Q ++ '"' :: delimChar d :: R)).1 =
      (match d with
       | .comma => runTokens cb th ⟨.text, hdr, cols ++ [unescQ (T ++ Q)], []⟩
           (tokenize R).1
       | .newline => emitRow cb th hdr (cols ++ [unescQ (T ++ Q)])
           (tokenize R).1) := by
  have hnd' : noDelim (Q ++ ['"']) = true := by
    rw [noDelim_append, hnd]
    rfl
  rw [show Q ++ '"' :: delimChar d :: R = (Q ++ ['"']) ++ delimChar d :: R by simp,
    tokenize_noDelim_cons hnd' d R]
  cases d
  · simp only [runTokens]
    rw [step_escaped_close_comma rfl hwf th]
  · refine runTokens_finalize_step cb th hdr (cols ++ [unescQ (T ++ Q)]) _ ?_
    rw [step_escaped_close_newline rfl hwf th]
    dsimp only
    rw [finalizeRow_fst_reset, finalizeRow_snd_eq]

/-- Consuming the middle and closing spans of an escaped field: the
accumulated text plus the remaining well-formed content is unescaped into
one column when the closing quote's delimiter resolves. -/
theorem runTokens_escaped_run (cb : Row → CbSignal)
    (th : Option (List Char → List Char)) (hdr : List (List Char))
    (d : Delim) (R : List Char) :
    ∀ n : Nat, ∀ Q : List Char, Q.length ≤ n → wfEsc Q = true →
    ∀ (cols : List (List Char)) (T : List Char),
    runTokens cb th ⟨.escaped, hdr, cols, T⟩
        (tokenize (Q ++ '"' :: delimChar d :: R)).1 =
      (match d with
       | .comma => runTokens cb th ⟨.text, hdr, cols ++ [unescQ (T ++ Q)], []⟩
           (tokenize R).1
       | .newline => emitRow cb th hdr (cols ++ [unescQ (T ++ Q)])
           (tokenize R).1) := by
  intro n
  induction n with
  | zero =>
    intro Q hlen hwf cols T
    have hQ : Q = [] := List.length_eq_zero.mp (Nat.le_zero.mp hlen)
    subst hQ
    exact @runTokens_escaped_end cb th hdr cols T [] noDelim_nil rfl d R
  | succ n ih =>
    intro Q hlen hwf cols T
    by_cases hnd : noDelim Q = true
    · exact runTokens_escaped_end cb th hdr cols T hnd hwf d R
    · have hnd' : noDelim Q = false := by
        revert hnd
        cases noDelim Q <;> simp
      obtain ⟨a, d₂, b, hdec, hnda⟩ := exists_first_delim hnd'
      subst hdec
      have hwfab : wfEsc a = true ∧ wfEsc b = true := by
        rw [wfEsc_append_delim (delimChar d₂) (delimChar_ne_quote d₂)] at hwf
        simp only [Bool.and_eq_true] at hwf
        exact hwf
      rw [show (a ++ delimChar d₂ :: b) ++ '"' :: delimChar d :: R
          = a ++ delimChar d₂ :: (b ++ '"' :: delimChar d :: R) by simp,
        tokenize_noDelim_cons hnda d₂ _]
      simp only [runTokens]
      rw [step_escaped_continue rfl hwfab.1 th]
      dsimp only
      have hlb : b.length ≤ n := by
        rw [List.length_append, List.length_cons] at hlen
        omega
      rw [ih b hlb hwfab.2 cols (T ++ a ++ [delimChar d₂])]
      rw [show (T ++ a ++ [delimChar d₂]) ++ b = T ++ (a ++ delimChar d₂ :: b) by simp]

/-- Consuming one whole quoted field `"Q"` from `text` state: the unescaped
content becomes the next column, across however many spans the quoted
content's own delimiters induce. -/
theorem runTokens_quoted_field (cb : Row → CbSignal)
    (th : Option (List Char → List Char)) (hdr : List (List Char))
    {Q : List Char} (hwf : wfEsc Q = true) (d : Delim) (R : List Char)
    (cols : List (List Char)) :
    runTokens cb th ⟨.text, hdr, cols, []⟩
        (tokenize (('"' :: Q ++ ['"']) ++ delimChar d :: R)).1 =
      (match d with
       | .comma => runTokens cb th ⟨.text, hdr, cols ++ [unescQ Q], []⟩
           (tokenize R).1
       | .newline => emitRow cb th hdr (cols ++ [unescQ Q]) (tokenize R).1) := by
  by_cases hnd : noDelim Q = true
  · have hndq : noDelim ('"' :: Q ++ ['"']) = true := by
      rw [noDelim_append, noDelim_cons, hnd]
      decide
    rw [tokenize_noDelim_cons hndq d R]
    cases d
    · simp only [runTokens]
      rw [step_quoted_comma rfl hwf th]
    · refine runTokens_finalize_step cb th hdr (cols ++ [unescQ Q]) _ ?_
      rw [step_quoted_newline rfl hwf th]
  · have hnd' : noDelim Q = false := by
      revert hnd
      cases noDelim Q <;> simp
    obtain ⟨a, d₂, b, hdec, hnda⟩ := exists_first_delim hnd'
    subst hdec
    have hwfab : wfEsc a = true ∧ wfEsc b = true := by
      rw [wfEsc_append_delim (delimChar d₂) (delimChar_ne_quote d₂)] at hwf
      simp only [Bool.and_eq_true] at hwf
      exact hwf
    have hnda' : noDelim ('"' :: a) = true := by
      rw [noDelim_cons, hnda]
      decide
    rw [show ('"' :: (a ++ delimChar d₂ :: b) ++ ['"']) ++ delimChar d :: R
        = ('"' :: a) ++ delimChar d₂ :: (b ++ '"' :: delimChar d :: R) by simp,
      tokenize_noDelim_cons hnda' d₂ _]
    simp only [runTokens]
    rw [step_quoted_open rfl hwfab.1 th]
    dsimp only
    simp only [List.nil_append]
    rw [runTokens_escaped_run cb th hdr d R b.length b le_rfl hwfab.2 cols
      (a ++ [delimChar d₂])]
    rw [show (a ++ [delimChar d₂]) ++ b = a ++ delimChar d₂ :: b by simp]

theorem plainChar_spec {c : Char} (h : plainChar c = true) :
    isJsWS c = false ∧ charDelim? c = none ∧ c ≠ '"' := by
  unfold plainChar at h
  simp only [Bool.and_eq_true, Bool.not_eq_true', Option.isNone_iff_eq_none,
    decide_eq_true_eq] at h
  exact ⟨h.1.1, h.1.2, h.2⟩

theorem digitCh_plain {k : Nat} (hk : k < 10) : plainChar (digitCh k) = true := by
  interval_cases k <;> decide

theorem natChars_plain (n : Nat) : ∀ c ∈ natChars n, plainChar c = true := by
  induction n using Nat.strong_induction_on with
  | _ n ih =>
    intro c hc
    rw [natChars] at hc
    by_cases h : n < 10
    · rw [if_pos h] at hc
      rw [List.mem_singleton.mp hc]
      exact digitCh_plain h
    · rw [if_neg h] at hc
      rcases List.mem_append.mp hc with hm | hm
      · exact ih (n / 10) (Nat.div_lt_self (by omega) (by omega)) c hm
      · rw [List.mem_singleton.mp hm]
        exact digitCh_plain (Nat.mod_lt _ (by omega))

theorem intChars_plain (n : Int) : ∀ c ∈ intChars n, plainChar c = true := by
  intro c hc
  unfold intChars at hc
  by_cases h : n < 0
  · rw [if_pos h] at hc
    rcases List.mem_cons.mp hc with rfl | hm
    · decide
    · exact natChars_plain _ c hm
  · rw [if_neg h] at hc
    exact natChars_plain _ c hc

theorem joinSep_mem {sep : List Char} :
    ∀ {xs : List (List Char)}, ∀ c ∈ joinSep sep xs, c ∈ sep ∨ ∃ x ∈ xs, c ∈ x
  | [], c, hc => by cases hc
  | [x], c, hc => Or.inr ⟨x, by simp, hc⟩
  | x :: y :: ys, c, hc => by
    rw [show joinSep sep (x :: y :: ys) = x ++ sep ++ joinSep sep (y :: ys)
      from rfl] at hc
    rcases List.mem_append.mp hc with h | h
    · rcases List.mem_append.mp h with h | h
      · exact Or.inr ⟨x, by simp, h⟩
      · exact Or.inl h
    · rcases joinSep_mem c h with h | ⟨z, hz, hcz⟩
      · exact Or.inl h
      · exact Or.inr ⟨z, by simp [List.mem_cons.mp hz], hcz⟩

theorem jsonArr_no_quote (a : List Int) : ∀ c ∈ jsonArrChars a, c ≠ '"' := by
  intro c hc
  unfold jsonArrChars at hc
  rcases List.mem_cons.mp hc with rfl | h
  · decide
  · rcases List.mem_append.mp h with h | h
    · rcases joinSep_mem c h with h | ⟨x, hx, hcx⟩
      · rw [List.mem_singleton.mp h]
        decide
      · obtain ⟨m, _, rfl⟩ := List.mem_map.mp hx
        exact (plainChar_spec (intChars_plain m c hcx)).2.2
    · rw [List.mem_singleton.mp h]
      decide

/-- Consuming one bare written field (no quote, no delimiter,
trim-invariant) up to its comma from `text` state. -/
theorem runTokens_bare_comma (cb : Row → CbSignal)
    (th : Option (List Char → List Char)) (hdr : List (List Char))
    {w : List Char} (hq : ∀ a ∈ w, a ≠ '"') (hnd : noDelim w = true)
    (htr : trim w = w) (R : List Char) (cols : List (List Char)) :
    runTokens cb th ⟨.text, hdr, cols, []⟩ (tokenize (w ++ ',' :: R)).1 =
      runTokens cb th ⟨.text, hdr, cols ++ [w], []⟩ (tokenize R).1 := by
  have htk := tokenize_noDelim_cons hnd Delim.comma R
  simp only [delimChar] at htk
  rw [htk]
  simp only [runTokens]
  rw [step_bare_comma rfl hq th, htr]

/-- Consuming one bare written field up to a newline from `text` state: the
row (not blank thanks to the hypothesis) is finalized. -/
theorem runTokens_bare_newline (cb : Row → CbSignal)
    (th : Option (List Char → List Char)) (hdr : List (List Char))
    {w : List Char} (hq : ∀ a ∈ w, a ≠ '"') (hnd : noDelim w = true)
    (htr : trim w = w) (R : List Char) (cols : List (List Char))
    (hnb : 0 < cols.length ∨ w ≠ []) :
    runTokens cb th ⟨.text, hdr, cols, []⟩ (tokenize (w ++ '\n' :: R)).1 =
      emitRow cb th hdr (cols ++ [w]) (tokenize R).1 := by
  have htk := tokenize_noDelim_cons hnd Delim.newline R
  simp only [delimChar] at htk
  rw [htk]
  refine runTokens_finalize_step cb th hdr (cols ++ [w]) _ ?_
  have hb : 0 < cols.length ∨ trim w ≠ [] := by
    rw [htr]
    exact hnb
  rw [step_bare_newline rfl hq hb th, htr]

/-- Consuming one written field of any value kind up to its comma: the
parser recovers `serializeParsed` of the value as the next column. -/
theorem runTokens_field_comma (cb : Row → CbSignal)
    (th : Option (List Char → List Char)) (hdr : List (List Char))
    {v : Value} (hrt : strRoundtrips v = true) (R : List Char)
    (cols : List (List Char)) :
    runTokens cb th ⟨.text, hdr, cols, []⟩
        (tokenize (writeField v ++ ',' :: R)).1 =
      runTokens cb th ⟨.text, hdr, cols ++ [serializeParsed v], []⟩
        (tokenize R).1 := by
  cases v with
  | str s =>
    by_cases hsp : hasSpecial s = true
    · have hw : writeField (.str s) = '"' :: escQ s ++ ['"'] := by
        show escapeCsvSpecialChars s = '"' :: escQ s ++ ['"']
        unfold escapeCsvSpecialChars
        unfold hasSpecial at hsp
        rw [if_pos hsp]
      rw [hw]
      have h1 := runTokens_quoted_field cb th hdr (wfEsc_escQ s) Delim.comma R cols
      rw [unescQ_escQ] at h1
      simp only [delimChar] at h1
      exact h1
    · have hspF : hasSpecial s = false := by
        revert hsp
        cases hasSpecial s <;> simp
      have hcons : (s.contains '"' = false ∧ s.contains ',' = false) ∧
          s.contains '\n' = false := by
        unfold hasSpecial at hspF
        simpa [Bool.or_eq_false_iff] using hspF
      have hw : writeField (.str s) = s := by
        show escapeCsvSpecialChars s = s
        unfold escapeCsvSpecialChars
        rw [hcons.1.1, hcons.1.2, hcons.2]
        rfl
      have htr : trim s = s := by
        have hrt' : (hasSpecial s || (trim s == s)) = true := hrt
        rw [hspF, Bool.false_or] at hrt'
        exact eq_of_beq hrt'
      rw [hw]
      exact runTokens_bare_comma cb th hdr
        (mem_ne_of_contains_eq_false hcons.1.1)
        (noDelim_of_no_special hcons.1.2 hcons.2) htr R cols
  | num n =>
    have hpl := intChars_plain n
    have hq : ∀ a ∈ intChars n, a ≠ '"' := fun a ha => (plainChar_spec (hpl a ha)).2.2
    have hnd : noDelim (intChars n) = true :=
      List.all_eq_true.mpr fun a ha => by
        rw [(plainChar_spec (hpl a ha)).2.1]
        rfl
    have htr : trim (intChars n) = intChars n :=
      trim_eq_self fun a ha => (plainChar_spec (hpl a ha)).1
    exact runTokens_bare_comma cb th hdr hq hnd htr R cols
  | arr a =>
    have h1 := runTokens_quoted_field cb th hdr
      (wfEsc_noquote (jsonArr_no_quote a)) Delim.comma R cols
    rw [unescQ_noquote (jsonArr_no_quote a)] at h1
    simp only [delimChar] at h1
    exact h1
  | undef =>
    exact runTokens_bare_comma cb th hdr
      (fun a ha => absurd ha (List.not_mem_nil a)) rfl rfl R cols

/-- Consuming one written field of any value kind up to a newline: the
value's recovered text becomes the last column and the row is finalized. -/
theorem runTokens_field_newline (cb : Row → CbSignal)
    (th : Option (List Char → List Char)) (hdr : List (List Char))
    {v : Value} (hrt : strRoundtrips v = true) (R : List Char)
    (cols : List (List Char)) (hnb : 0 < cols.length ∨ writeField v ≠ []) :
    runTokens cb th ⟨.text, hdr, cols, []⟩
        (tokenize (writeField v ++ '\n' :: R)).1 =
      emitRow cb th hdr (cols ++ [serializeParsed v]) (tokenize R).1 := by
  cases v with
  | str s =>
    by_cases hsp : hasSpecial s = true
    · have hw : writeField (.str s) = '"' :: escQ s ++ ['"'] := by
        show escapeCsvSpecialChars s = '"' :: escQ s ++ ['"']
        unfold escapeCsvSpecialChars
        unfold hasSpecial at hsp
        rw [if_pos hsp]
      rw [hw]
      have h1 := runTokens_quoted_field cb th hdr (wfEsc_escQ s) Delim.newline R cols
      rw [unescQ_escQ] at h1
      simp only [delimChar] at h1
      exact h1
    · have hspF : hasSpecial s = false := by
        revert hsp
        cases hasSpecial s <;> simp
      have hcons : (s.contains '"' = false ∧ s.contains ',' = false) ∧
          s.contains '\n' = false := by
        unfold hasSpecial at hspF
        simpa [Bool.or_eq_false_iff] using hspF
      have hw : writeField (.str s) = s := by
        show escapeCsvSpecialChars s = s
        unfold escapeCsvSpecialChars
        rw [hcons.1.1, hcons.1.2, hcons.2]
        rfl
      have htr : trim s = s := by
        have hrt' : (hasSpecial s || (trim s == s)) = true := hrt
        rw [hspF, Bool.false_or] at hrt'
        exact eq_of_beq hrt'
      rw [hw]
      refine runTokens_bare_newline cb th hdr
        (mem_ne_of_contains_eq_false hcons.1.1)
        (noDelim_of_no_special hcons.1.2 hcons.2) htr R cols ?_
      rw [← hw]
      exact hnb
  | num n =>
    have hpl := intChars_plain n
    have hq : ∀ a ∈ intChars n, a ≠ '"' := fun a ha => (plainChar_spec (hpl a ha)).2.2
    have hnd : noDelim (intChars n) = true :=
      List.all_eq_true.mpr fun a ha => by
        rw [(plainChar_spec (hpl a ha)).2.1]
        rfl
    have htr : trim (intChars n) = intChars n :=
      trim_eq_self fun a ha => (plainChar_spec (hpl a ha)).1
    exact runTokens_bare_newline cb th hdr hq hnd htr R cols hnb
  | arr a =>
    have h1 := runTokens_quoted_field cb th hdr
      (wfEsc_noquote (jsonArr_no_quote a)) Delim.newline R cols
    rw [unescQ_noquote (jsonArr_no_quote a)] at h1
    simp only [delimChar] at h1
    exact h1
  | undef =>
    exact runTokens_bare_newline cb th hdr
      (fun a ha => absurd ha (List.not_mem_nil a)) rfl rfl R cols hnb

/-- Parsing one written data line: the written fields come back as
`serializeParsed` of their values and the row is finalized at the line's
terminator. -/
theorem runTokens_line (cb : Row → CbSignal)
    (th : Option (List Char → List Char)) (hdr : List (List Char)) :
    ∀ (vals : List Value) (cols : List (List Char)) (R : List Char),
    (∀ v ∈ vals, strRoundtrips v = true) → vals ≠ [] →
    (cols ≠ [] ∨ 2 ≤ vals.length ∨ ∃ v, vals = [v] ∧ writeField v ≠ []) →
    runTokens cb th ⟨.text, hdr, cols, []⟩
        (tokenize (writeCsvRow vals ++ '\n' :: R)).1 =
      emitRow cb th hdr (cols ++ vals.map serializeParsed) (tokenize R).1 := by
  intro vals
  induction vals with
  | nil =>
    intro cols R _ hne _
    exact absurd rfl hne
  | cons v vs ih =>
    intro cols R hrt _ hnb
    cases vs with
    | nil =>
      have hw : writeCsvRow [v] = writeField v := by
        show joinSep [','] [writeField v] = writeField v
        rfl
      rw [hw]
      have hb : 0 < cols.length ∨ writeField v ≠ [] := by
        rcases hnb with h | h | ⟨v', hv', hne'⟩
        · exact Or.inl (List.length_pos.mpr h)
        · simp at h
        · injection hv' with h1 _
          subst h1
          exact Or.inr hne'
      exact runTokens_field_newline cb th hdr (hrt v (by simp)) R cols hb
    | cons v₂ vs₂ =>
      have hw : writeCsvRow (v :: v₂ :: vs₂) =
          writeField v ++ ',' :: writeCsvRow (v₂ :: vs₂) := by
        show joinSep [','] (writeField v :: writeField v₂ :: (vs₂.map writeField)) = _
        rw [show joinSep [','] (writeField v :: writeField v₂ :: (vs₂.map writeField))
            = writeField v ++ [','] ++ joinSep [','] (writeField v₂ :: (vs₂.map writeField))
          from rfl]
        simp [writeCsvRow]
      rw [hw, show (writeField v ++ ',' :: writeCsvRow (v₂ :: vs₂)) ++ '\n' :: R
          = writeField v ++ ',' :: (writeCsvRow (v₂ :: vs₂) ++ '\n' :: R) by simp]
      rw [runTokens_field_comma cb th hdr (hrt v (by simp)) _ cols]
      rw [ih (cols ++ [serializeParsed v]) R (fun u hu => hrt u (by simp [hu]))
        (by simp) (Or.inl (by simp))]
      simp

/-- Parsing the header line (no transform): the captured header is exactly
the written field-name list. -/
theorem runTokens_header (cb : Row → CbSignal) :
    ∀ (fs cols : List (List Char)) (R : List Char), fs ≠ [] →
    (∀ f ∈ fs, f ≠ [] ∧ ∀ c ∈ f, plainChar c = true) →
    runTokens cb none ⟨.text, [], cols, []⟩
        (tokenize (joinSep [','] fs ++ '\n' :: R)).1 =
      runTokens cb none ⟨.text, cols ++ fs, [], []⟩ (tokenize R).1 := by
  intro fs
  induction fs with
  | nil =>
    intro cols R hne _
    exact absurd rfl hne
  | cons f fs ih =>
    intro cols R _ hpl
    have hf := hpl f (by simp)
    have hq : ∀ a ∈ f, a ≠ '"' := fun a ha => (plainChar_spec (hf.2 a ha)).2.2
    have hnd : noDelim f = true :=
      List.all_eq_true.mpr fun a ha => by
        rw [(plainChar_spec (hf.2 a ha)).2.1]
        rfl
    have htr : trim f = f := trim_eq_self fun a ha => (plainChar_spec (hf.2 a ha)).1
    cases fs with
    | nil =>
      rw [show joinSep [','] [f] = f from rfl]
      have htk := tokenize_noDelim_cons hnd Delim.newline R
      simp only [delimChar] at htk
      rw [htk]
      simp only [runTokens]
      rw [step_bare_newline rfl hq (Or.inr (by rw [htr]; exact hf.1)) none]
      dsimp only
      rw [htr,
        show finalizeRow none ⟨.text, [], cols ++ [f], []⟩
          = (⟨.text, cols ++ [f], [], []⟩, none) from by simp [finalizeRow]]
    | cons f₂ fs₂ =>
      rw [show joinSep [','] (f :: f₂ :: fs₂)
          = f ++ ',' :: joinSep [','] (f₂ :: fs₂) from by
        rw [show joinSep [','] (f :: f₂ :: fs₂)
            = f ++ [','] ++ joinSep [','] (f₂ :: fs₂) from rfl]
        simp]
      rw [show (f ++ ',' :: joinSep [','] (f₂ :: fs₂)) ++ '\n' :: R
          = f ++ ',' :: (joinSep [','] (f₂ :: fs₂) ++ '\n' :: R) by simp]
      rw [runTokens_bare_comma cb none [] hq hnd htr _ cols]
      rw [ih (cols ++ [f]) R (by simp) (fun g hg => hpl g (by simp [hg]))]
      simp

/-- Parsing the written data lines of a list of exportable entities, with a
callback accepting each delivered row: every entity's line delivers exactly
its expected raw row, and the parser ends where it started. -/
theorem runTokens_rows (cb : Row → CbSignal) (fields : List (List Char))
    (hne : fields ≠ []) :
    ∀ entities : List Entity,
    (∀ e ∈ entities, exportableEntity fields e = true) →
    (∀ e ∈ entities, cb (expectedRaw fields e) = .next) →
    runTokens cb none ⟨.text, fields, [], []⟩
        (tokenize ((entities.map (fun e =>
          writeCsvRow (fields.map (fun f => entityGet e f)) ++ ['\n'])).flatten)).1 =
      (.done ⟨.text, fields, [], []⟩, entities.map (expectedRaw fields)) := by
  intro entities
  induction entities with
  | nil =>
    intro _ _
    rfl
  | cons e es ih =>
    intro hexp hcb
    have hexpe := hexp e (by simp)
    unfold exportableEntity at hexpe
    simp only [Bool.and_eq_true] at hexpe
    have hrt : ∀ v ∈ fields.map (fun f => entityGet e f), strRoundtrips v = true := by
      intro v hv
      obtain ⟨f, hfm, rfl⟩ := List.mem_map.mp hv
      exact List.all_eq_true.mp hexpe.1 f hfm
    have hvne : fields.map (fun f => entityGet e f) ≠ [] := by
      intro h
      exact hne (List.map_eq_nil.mp h)
    have hnb : ([] : List (List Char)) ≠ [] ∨
        2 ≤ (fields.map (fun f => entityGet e f)).length ∨
        ∃ v, fields.map (fun f => entityGet e f) = [v] ∧ writeField v ≠ [] := by
      have h2 := hexpe.2
      rw [Bool.or_eq_true] at h2
      rcases h2 with h | h
      · refine Or.inr (Or.inl ?_)
        rw [List.length_map]
        exact of_decide_eq_true h
      · refine Or.inr (Or.inr ?_)
        match fields, h with
        | [f], h =>
          exact ⟨entityGet e f, by simp, of_decide_eq_true h⟩
    rw [List.map_cons, List.flatten_cons,
      show (writeCsvRow (fields.map (fun f => entityGet e f)) ++ ['\n']) ++
          (es.map (fun e => writeCsvRow (fields.map (fun f => entityGet e f)) ++ ['\n'])).flatten
        = writeCsvRow (fields.map (fun f => entityGet e f)) ++
          '\n' :: (es.map (fun e => writeCsvRow (fields.map (fun f => entityGet e f)) ++ ['\n'])).flatten
        by simp]
    rw [runTokens_line cb none fields (fields.map (fun f => entityGet e f)) [] _ hrt hvne hnb]
    have hfin : finalizeRow none
        ⟨.text, fields, (fields.map (fun f => entityGet e f)).map serializeParsed, []⟩
        = (⟨.text, fields, [], []⟩, some (expectedRaw fields e)) := by
      unfold finalizeRow
      rw [if_neg hne]
      unfold expectedRaw
      rw [List.map_map]
      rfl
    unfold emitRow
    simp only [List.nil_append]
    rw [hfin]
    dsimp only
    rw [hcb e (by simp)]
    dsimp only
    rw [ih (fun x hx => hexp x (by simp [hx])) (fun x hx => hcb x (by simp [hx]))]
    simp

/-- A chunk ending in a delimiter tokenizes with no remainder (and at least
one span). -/
theorem tokenize_end_delim : ∀ (x : List Char) (d : Delim),
    (tokenize (x ++ [delimChar d])).1 ≠ [] ∧ (tokenize (x ++ [delimChar d])).2 = []
  | [], d => by
    rw [List.nil_append, tokenize_cons, charDelim?_delimChar]
    exact ⟨by simp, rfl⟩
  | c :: x, d => by
    rw [List.cons_append, tokenize_cons]
    obtain ⟨h1, h2⟩ := tokenize_end_delim x d
    rcases hc : charDelim? c with _ | d'
    · rcases ht : (tokenize (x ++ [delimChar d])).1 with _ | ⟨⟨f, d₀⟩, ts2⟩
      · exact absurd ht h1
      · exact ⟨by simp, h2⟩
    · exact ⟨by simp, h2⟩

/-- The flattened written data lines are empty or end in a newline. -/
theorem rows_flat_decomp (fields : List (List Char)) :
    ∀ entities : List Entity,
    (entities.map (fun e =>
      writeCsvRow (fields.map (fun f => entityGet e f)) ++ ['\n'])).flatten = [] ∨
    ∃ L, (entities.map (fun e =>
      writeCsvRow (fields.map (fun f => entityGet e f)) ++ ['\n'])).flatten =
        L ++ ['\n']
  | [] => Or.inl rfl
  | e :: es => by
    rw [List.map_cons, List.flatten_cons]
    rcases rows_flat_decomp fields es with h | ⟨L, h⟩
    · rw [h, List.append_nil]
      exact Or.inr ⟨writeCsvRow (fields.map (fun f => entityGet e f)), rfl⟩
    · rw [h]
      exact Or.inr ⟨writeCsvRow (fields.map (fun f => entityGet e f)) ++ '\n' :: L,
        by simp⟩

/-- The exported text ends in a newline, so its tokenization has no
remainder. -/
theorem exportContent_tokenize_tail (fields : List (List Char))
    (entities : List Entity) :
    (tokenize (exportContent fields entities)).2 = [] := by
  unfold exportContent
  rcases rows_flat_decomp fields entities with h | ⟨L, h⟩
  · rw [h]
    exact (tokenize_end_delim (joinSep [','] fields) .newline).2
  · rw [h, show joinSep [','] fields ++ '\n' :: (L ++ ['\n'])
        = (joinSep [','] fields ++ '\n' :: L) ++ ['\n'] by simp]
    exact (tokenize_end_delim (joinSep [','] fields ++ '\n' :: L) .newline).2

/-- The synthetic final newline fed by the stream driver is a no-op when the
parser is at a row boundary with no pending columns. -/
theorem parseChunk_lf (cb : Row → CbSignal)
    (th : Option (List Char → List Char)) (fields : List (List Char)) :
    parseChunk ['\n'] cb ⟨.text, fields, [], []⟩ th =
      (.done ⟨.text, fields, [], []⟩ [], []) := rfl

/-- Parsing the whole exported text in one call: the header is recaptured
and each entity's row is delivered, ending with an empty remainder. -/
theorem parseChunk_content (cb : Row → CbSignal) (fields : List (List Char))
    (entities : List Entity) (hne : fields ≠ [])
    (hpl : ∀ f ∈ fields, f ≠ [] ∧ ∀ c ∈ f, plainChar c = true)
    (hexp : ∀ e ∈ entities, exportableEntity fields e = true)
    (hcb : ∀ e ∈ entities, cb (expectedRaw fields e) = .next) :
    parseChunk (exportContent fields entities) cb initState none =
      (.done ⟨.text, fields, [], []⟩ [], entities.map (expectedRaw fields)) := by
  have ht2 := exportContent_tokenize_tail fields entities
  unfold parseChunk
  rw [show initState = (⟨.text, [], [], []⟩ : CsvParseState) from rfl]
  unfold exportContent at ht2 ⊢
  rw [runTokens_header cb fields [] _ hne hpl]
  simp only [List.nil_append]
  rw [runTokens_rows cb fields hne entities hexp hcb]
  dsimp only
  rw [ht2]

/-- The full stream drive of the exported text, split into arbitrary chunks:
same rows, and the synthetic trailing newline feed is a no-op. -/
theorem runCsvStream_export (cb : Row → CbSignal) (fields : List (List Char))
    (entities : List Entity) (chunks : List (List Char))
    (hch : chunks.flatten = exportContent fields entities)
    (hne : fields ≠ [])
    (hpl : ∀ f ∈ fields, f ≠ [] ∧ ∀ c ∈ f, plainChar c = true)
    (hexp : ∀ e ∈ entities, exportableEntity fields e = true)
    (hcb : ∀ e ∈ entities, cb (expectedRaw fields e) = .next) :
    runCsvStream cb none chunks =
      (.done ⟨.text, fields, [], []⟩ [], entities.map (expectedRaw fields)) := by
  unfold runCsvStream
  rw [parseSeq_eq_single cb none chunks initState [] rfl, List.nil_append, hch]
  rw [parseChunk_content cb fields entities hne hpl hexp hcb]
  dsimp only
  rw [List.nil_append, parseChunk_lf cb none fields]
  dsimp only
  rw [List.append_nil]

/-- `Map.set` with a fresh key appends at the end (JS `Map` insertion
order). -/
theorem mapSet_append_of_not_mem {α : Type} :
    ∀ {m : List (List Char × α)} {k : List Char} (v : α),
    (∀ p ∈ m, p.1 ≠ k) → mapSet m k v = m ++ [(k, v)]
  | [], _, _, _ => rfl
  | (k', v') :: rest, k, v, h => by
    rw [mapSet, if_neg (h (k', v') (by simp)),
      mapSet_append_of_not_mem v (fun p hp => h p (by simp [hp]))]
    rfl

/-- Replaying the expected raw rows of a well-formed table through
`addEntity(row, false)` rebuilds the table entry by entry. -/
theorem importRows_rebuild (cfg : OneIndexCfg) (reg : Registry) :
    ∀ (t2 acc : OneIndexMap),
    (∀ p ∈ t2, p.1 = getKey cfg p.2) →
    ((acc ++ t2).map Prod.fst).Nodup →
    (∀ p ∈ t2, cfg.validate (expectedRaw cfg.fieldNames p.2) = .ok p.2) →
    importRows cfg reg acc ((t2.map Prod.snd).map (expectedRaw cfg.fieldNames)) =
      .ok (acc ++ t2) := by
  intro t2
  induction t2 with
  | nil =>
    intro acc _ _ _
    simp [importRows]
  | cons p rest ih =>
    intro acc hkey hnd hval
    rcases p with ⟨k, e⟩
    simp only [List.map_cons]
    rw [importRows]
    rw [show addEntity cfg reg acc (expectedRaw cfg.fieldNames e) false =
        .ok (mapSet acc (getKey cfg e) e) from by
      unfold addEntity
      rw [hval (k, e) (by simp)]
      rfl]
    dsimp only
    have hk : k = getKey cfg e := hkey (k, e) (by simp)
    have hnotin : ∀ q ∈ acc, q.1 ≠ k := by
      intro q hq heq
      have h1 : (List.map Prod.fst acc ++ List.map Prod.fst ((k, e) :: rest)).Nodup := by
        rw [← List.map_append]
        exact hnd
      exact List.disjoint_of_nodup_append h1
        (List.mem_map.mpr ⟨q, hq, heq⟩)
        (by rw [List.map_cons]; exact List.mem_cons_self _ _)
    rw [← hk, mapSet_append_of_not_mem e hnotin]
    rw [ih (acc ++ [(k, e)]) (fun q hq => hkey q (by simp [hq]))
      (by simpa [List.append_assoc] using hnd)
      (fun q hq => hval q (by simp [hq]))]
    simp

/-! ## Claim C3 -/

/-- **C3** (amended).  Export-then-reimport is the identity on the stored
table under the conditions the code actually needs: no header transform,
plain header names, a well-formed table (keys recomputed and unique), every
entity exportable (string fields quoted or trim-invariant, no all-blank
single-column line), a schema validator that reproduces each stored entity
from its serialized row, and foreign keys that still resolve at reimport
(or transcode mode).  Then `importFromPath` over any chunking of
`exportToPath`'s text rebuilds the very same table in a fresh one. -/
theorem export_reimport_roundtrip (cfg : OneIndexCfg) (reg : Registry)
    (tbl : OneIndexMap) (chunks : List (List Char))
    (hth : cfg.transformHeader = none)
    (hok : headerOk cfg.fieldNames = true)
    (hwf : WellFormedTable cfg tbl)
    (hexp : ∀ p ∈ tbl, exportableEntity cfg.fieldNames p.2 = true)
    (hval : ∀ p ∈ tbl, cfg.validate (expectedRaw cfg.fieldNames p.2) = .ok p.2)
    (hfk : reg.transcodeMode = true ∨ validateLinkedFields cfg reg tbl = .ok ())
    (hch : chunks.flatten = exportToPath cfg tbl) :
    importFromPath cfg reg [] (some chunks) = .ok tbl := by
  have hne : cfg.fieldNames ≠ [] := by
    unfold headerOk at hok
    simp only [Bool.and_eq_true, decide_eq_true_eq] at hok
    exact hok.1
  have hpl : ∀ f ∈ cfg.fieldNames, f ≠ [] ∧ ∀ c ∈ f, plainChar c = true := by
    intro f hf
    unfold headerOk at hok
    simp only [Bool.and_eq_true, decide_eq_true_eq] at hok
    have := List.all_eq_true.mp hok.2 f hf
    simp only [Bool.and_eq_true, decide_eq_true_eq] at this
    exact ⟨this.1, List.all_eq_true.mp this.2⟩
  have hcb : ∀ e ∈ tbl.map Prod.snd,
      importCb cfg (expectedRaw cfg.fieldNames e) = .next := by
    intro e he
    obtain ⟨p, hp, rfl⟩ := List.mem_map.mp he
    unfold importCb
    rw [hval p hp]
  have hexp' : ∀ e ∈ tbl.map Prod.snd, exportableEntity cfg.fieldNames e = true := by
    intro e he
    obtain ⟨p, hp, rfl⟩ := List.mem_map.mp he
    exact hexp p hp
  have hch' : chunks.flatten = exportContent cfg.fieldNames (tbl.map Prod.snd) := by
    rw [hch]
    rfl
  have hval' : ∀ p ∈ tbl, cfg.validate (expectedRaw cfg.fieldNames p.2) = .ok p.2 :=
    hval
  have himp : importFromCsvT cfg reg [] (some chunks) = .ok tbl := by
    unfold importFromCsvT
    dsimp only
    rw [hth]
    rw [runCsvStream_export (importCb cfg) cfg.fieldNames (tbl.map Prod.snd)
      chunks hch' hne hpl hexp' hcb]
    dsimp only
    have hreb := importRows_rebuild cfg reg tbl [] hwf.1
      (by simpa using hwf.2) hval'
    rw [List.nil_append] at hreb
    rw [hreb]
  unfold importFromPath
  rw [himp]
  dsimp only
  cases htm : reg.transcodeMode with
  | true => simp
  | false =>
    rcases hfk with h | h
    · rw [htm] at h
      cases h
    · simp [h]

/-- Witness for C3 (amended): a concrete two-column table whose `v` value
holds a comma (quoted on export), exported and reimported from two chunks
split inside the quoted field. -/
theorem export_reimport_roundtrip_witness :
    (headerOk demoCfg.fieldNames = true ∧
     WellFormedTable demoCfg demoRtTbl ∧
     (∀ p ∈ demoRtTbl, exportableEntity demoCfg.fieldNames p.2 = true) ∧
     ["id,v\n1,\"a".data, ",b\"\n".data].flatten = exportToPath demoCfg demoRtTbl) ∧
    importFromPath demoCfg demoReg []
      (some ["id,v\n1,\"a".data, ",b\"\n".data]) = .ok demoRtTbl :=
  ⟨⟨by decide, ⟨by decide, by decide⟩, by decide, by decide⟩,
   export_reimport_roundtrip demoCfg demoReg demoRtTbl
     ["id,v\n1,\"a".data, ",b\"\n".data] rfl (by decide)
     ⟨by decide, by decide⟩ (by decide) (by decide)
     (Or.inr (by decide)) (by decide)⟩

/-- Counterexample for C3 as stated: a table populated by one validated
`addEntity` insert whose `v` value ends in a space.  The writer emits the
value bare, the parser trims bare fields, so export-then-reimport into a
fresh table of the same schema yields a table whose entity differs
field-for-field from the original. -/
theorem export_reimport_not_lossless :
    addEntity demoCfg demoReg []
        [(['i', 'd'], some ['1']), (['v'], some ['a', ' '])] true =
      .ok demoWsTbl ∧
    importFromPath demoCfg demoReg [] (some [exportToPath demoCfg demoWsTbl]) =
      .ok [(['1'], [(['i', 'd'], .str ['1']), (['v'], .str ['a'])])] ∧
    importFromPath demoCfg demoReg [] (some [exportToPath demoCfg demoWsTbl]) ≠
      .ok demoWsTbl := by
  refine ⟨by decide, by decide, ?_⟩
  decide

end Tgtfs
